import Mathlib

/-!
Verification of the logtree log-browsing program: a shallow embedding of
its tree builder, path lookup, view model and scrollable view, together
with theorems settling the specification claims.

Strings are modelled as lists of characters (`Str`), machine integers as
`Int`/`Nat` (Python integers are unbounded, so no wrap-around modelling is
needed).
-/

set_option maxRecDepth 4000

-- Size limits from the source (logtree.py).
def MAX_LAYERS_COUNT : Nat := 10

def MIN_LINES_COUNT : Nat := 5

def MAX_CHILDREN_COUNT : Nat := 200

def MAX_VALUE_LENGTH : Nat := 80

abbrev Str : Type := List Char

/-! ## Tokenizer

`get_keywords` splits a line on whitespace (`KEYWORD_SEPARATOR_RE = \s`),
strips delimiter punctuation from both ends of each piece
(`strip_specials`), and drops empty pieces and pieces matching the cruft
regex (`is_cruft`, prefix-anchored alternation of ip/date/time patterns).
-/

def pySpace (c : Char) : Bool :=
  c = ' ' || c = '\t' || c = '\n' || c = '\x0b' || c = '\x0c' || c = '\x0d'

-- characters stripped by strip_specials: space tab ( ) [ ] braces : ; . ,
def specialChar (c : Char) : Bool :=
  c = ' ' || c = '\t' || c = '(' || c = ')' || c = '[' || c = ']' ||
  c = '\x7b' || c = '\x7d' || c = ':' || c = ';' || c = '.' || c = ','

-- re.split(KEYWORD_SEPARATOR_RE, line): split at every single whitespace
-- character, keeping empty pieces.
def splitOnSpace : Str → List Str
  | [] => [[]]
  | c :: cs =>
    if pySpace c then [] :: splitOnSpace cs
    else
      match splitOnSpace cs with
      | [] => [[c]]
      | piece :: rest => (c :: piece) :: rest

def dropTrailing (p : Char → Bool) (s : Str) : Str :=
  ((s.reverse).dropWhile p).reverse

-- str.strip(' \t()[]{}:;.,')
def stripSpecials (s : Str) : Str :=
  dropTrailing specialChar (s.dropWhile specialChar)

-- str.strip() (no arguments: strips whitespace)
def stripWs (s : Str) : Str :=
  dropTrailing pySpace (s.dropWhile pySpace)

def digitChar (c : Char) : Bool := '0' ≤ c && c ≤ '9'

def wordChar (c : Char) : Bool :=
  digitChar c || ('a' ≤ c && c ≤ 'z') || ('A' ≤ c && c ≤ 'Z') || c = '_'

-- Consume exactly n characters satisfying p, returning the remainder.
def consumeExact (p : Char → Bool) : Nat → Str → Option Str
  | 0, s => some s
  | _ + 1, [] => none
  | n + 1, c :: cs => if p c then consumeExact p n cs else none

/-- All remainders after matching between lo and hi characters satisfying
p at the front (models a bounded regex repetition with backtracking: the
pattern matches iff some remainder continues to a full match). -/
def repRem (p : Char → Bool) (lo hi : Nat) (s : Str) : List Str :=
  (List.range (hi + 1)).filterMap
    (fun n => if lo ≤ n then consumeExact p n s else none)

def charRem (c : Char) : Str → List Str
  | [] => []
  | x :: xs => if x = c then [xs] else []

def pThen (f g : Str → List Str) : Str → List Str :=
  fun s => (f s).flatMap g

-- the eight alternatives of CRUFT_RES, prefix-anchored
def ipPat : Str → List Str :=
  pThen (repRem digitChar 1 3) (pThen (charRem '.')
    (pThen (repRem digitChar 1 3) (pThen (charRem '.')
      (pThen (repRem digitChar 1 3) (pThen (charRem '.')
        (repRem digitChar 1 3))))))

def dateSlashPat : Str → List Str :=
  pThen (repRem digitChar 4 4) (pThen (charRem '/')
    (pThen (repRem digitChar 2 2) (pThen (charRem '/')
      (repRem digitChar 2 2))))

def dateMonPat : Str → List Str :=
  pThen (repRem digitChar 1 2) (pThen (charRem '-')
    (pThen (repRem wordChar 3 3) (pThen (charRem '-')
      (repRem digitChar 2 4))))

def dateDashPat : Str → List Str :=
  pThen (repRem digitChar 1 4) (pThen (charRem '-')
    (pThen (repRem digitChar 1 2) (pThen (charRem '-')
      (repRem digitChar 1 4))))

def timeColonPat : Str → List Str :=
  pThen (repRem digitChar 2 2) (pThen (charRem ':')
    (pThen (repRem digitChar 2 2) (pThen (charRem ':')
      (repRem digitChar 2 2))))

def minutesPat : Str → List Str :=
  pThen (repRem digitChar 1 2) (charRem 'm')

def secondsPat : Str → List Str :=
  pThen (repRem digitChar 1 2) (charRem 's')

def fracSecondsPat : Str → List Str :=
  pThen (repRem digitChar 1 2) (pThen (charRem '.')
    (pThen (repRem digitChar 1 2) (charRem 's')))

-- re.match(CRUFT_RES, string) is not None
def isCruft (s : Str) : Bool :=
  !(ipPat s).isEmpty || !(dateSlashPat s).isEmpty || !(dateMonPat s).isEmpty ||
  !(dateDashPat s).isEmpty || !(timeColonPat s).isEmpty ||
  !(minutesPat s).isEmpty || !(secondsPat s).isEmpty ||
  !(fracSecondsPat s).isEmpty

-- get_keywords(logline)
def getKeywords (line : Str) : List Str :=
  ((splitOnSpace line).map stripSpecials).filter
    (fun s => !s.isEmpty && !isCruft s)

/-! ## Bucket partitioning (LogTreeNode._build_children, first loop)

Lines are carried as pairs (keys, line).  The Python loop walks the pairs
in order, marks pairs whose key list ends at `key_depth` as final
(`p.1[keyDepth]? = none`; the source asserts `len(keys) >= key_depth`,
so this coincides with `len(keys) == key_depth` on reachable inputs), and
appends the others to the dict bucket of their key at `key_depth`
(python dicts preserve first-insertion order of keys).
-/

abbrev KLine : Type := List Str × Str

abbrev Bucket : Type := Str × List KLine

def addToBuckets (bs : List Bucket) (k : Str) (p : KLine) : List Bucket :=
  match bs with
  | [] => [(k, [p])]
  | (k₀, ps) :: rest =>
    if k₀ = k then (k₀, ps ++ [p]) :: rest else (k₀, ps) :: addToBuckets rest k p

def partitionAux (keyDepth : Nat) : List KLine → List Bucket × Bool → List Bucket × Bool
  | [], acc => acc
  | p :: rest, acc =>
    match p.1[keyDepth]? with
    | none => partitionAux keyDepth rest (acc.1, true)
    | some k => partitionAux keyDepth rest (addToBuckets acc.1 k p, acc.2)

def partitionPairs (keyDepth : Nat) (pairs : List KLine) : List Bucket × Bool :=
  partitionAux keyDepth pairs ([], false)

theorem addToBuckets_mem (bs : List Bucket) (k : Str) (p : KLine) :
    ∀ k' ps', (k', ps') ∈ addToBuckets bs k p → ∀ q ∈ ps',
      (∃ ps₀, (k', ps₀) ∈ bs ∧ q ∈ ps₀) ∨ (q = p ∧ k' = k) := by
  induction bs with
  | nil =>
    intro k' ps' hmem q hq
    simp [addToBuckets] at hmem
    obtain ⟨hk, hps⟩ := hmem
    subst hk; subst hps
    simp at hq
    right; exact ⟨hq, rfl⟩
  | cons b rest ih =>
    obtain ⟨k₀, ps₀⟩ := b
    intro k' ps' hmem q hq
    simp only [addToBuckets] at hmem
    by_cases hk : k₀ = k
    · rw [if_pos hk] at hmem
      rcases List.mem_cons.mp hmem with h | h
      · have h1 : k' = k₀ := congrArg Prod.fst h
        have h2 : ps' = ps₀ ++ [p] := congrArg Prod.snd h
        rw [h2] at hq
        rw [h1]
        rcases List.mem_append.mp hq with h | h
        · exact Or.inl ⟨ps₀, List.mem_cons_self .., h⟩
        · simp at h; subst h; exact Or.inr ⟨rfl, hk⟩
      · exact Or.inl ⟨ps', List.mem_cons_of_mem _ h, hq⟩
    · rw [if_neg hk] at hmem
      rcases List.mem_cons.mp hmem with h | h
      · have h1 : k' = k₀ := congrArg Prod.fst h
        have h2 : ps' = ps₀ := congrArg Prod.snd h
        rw [h2] at hq
        rw [h1]
        exact Or.inl ⟨ps₀, List.mem_cons_self .., hq⟩
      · rcases ih k' ps' h q hq with ⟨ps₁, hin, hq₁⟩ | h
        · exact Or.inl ⟨ps₁, List.mem_cons_of_mem _ hin, hq₁⟩
        · exact Or.inr h

theorem partitionAux_mem (keyDepth : Nat) :
    ∀ (pairs : List KLine) (acc : List Bucket × Bool) (k : Str) (ps : List KLine),
      (k, ps) ∈ (partitionAux keyDepth pairs acc).1 → ∀ q ∈ ps,
        (∃ ps₀, (k, ps₀) ∈ acc.1 ∧ q ∈ ps₀) ∨
        (q ∈ pairs ∧ q.1[keyDepth]? = some k) := by
  intro pairs
  induction pairs with
  | nil =>
    intro acc k ps hmem q hq
    exact Or.inl ⟨ps, hmem, hq⟩
  | cons p rest ih =>
    intro acc k ps hmem q hq
    simp only [partitionAux] at hmem
    cases hg : p.1[keyDepth]? with
    | none =>
      rw [hg] at hmem
      rcases ih _ k ps hmem q hq with ⟨ps₀, hin, hq₀⟩ | ⟨hq₁, hq₂⟩
      · exact Or.inl ⟨ps₀, hin, hq₀⟩
      · exact Or.inr ⟨List.mem_cons_of_mem _ hq₁, hq₂⟩
    | some kp =>
      rw [hg] at hmem
      rcases ih _ k ps hmem q hq with ⟨ps₀, hin, hq₀⟩ | ⟨hq₁, hq₂⟩
      · rcases addToBuckets_mem acc.1 kp p k ps₀ hin q hq₀ with ⟨ps₁, hin₁, hq₁⟩ | ⟨hqp, hkk⟩
        · exact Or.inl ⟨ps₁, hin₁, hq₁⟩
        · subst hqp; subst hkk
          exact Or.inr ⟨List.mem_cons_self .., hg⟩
      · exact Or.inr ⟨List.mem_cons_of_mem _ hq₁, hq₂⟩

theorem partitionPairs_mem {keyDepth : Nat} {pairs : List KLine} {k : Str}
    {ps : List KLine} (hmem : (k, ps) ∈ (partitionPairs keyDepth pairs).1) :
    ∀ q ∈ ps, q ∈ pairs ∧ q.1[keyDepth]? = some k := by
  intro q hq
  rcases partitionAux_mem keyDepth pairs ([], false) k ps hmem q hq with ⟨ps₀, hin, _⟩ | h
  · simp at hin
  · exact h

theorem addToBuckets_nonempty (bs : List Bucket) (k : Str) (p : KLine)
    (h : ∀ b ∈ bs, b.2 ≠ []) : ∀ b ∈ addToBuckets bs k p, b.2 ≠ [] := by
  induction bs with
  | nil => intro b hb; simp [addToBuckets] at hb; subst hb; simp
  | cons b₀ rest ih =>
    obtain ⟨k₀, ps₀⟩ := b₀
    intro b hb
    simp only [addToBuckets] at hb
    by_cases hk : k₀ = k
    · simp only [hk, if_pos rfl] at hb
      rcases List.mem_cons.mp hb with hb | hb
      · subst hb; simp
      · exact h b (List.mem_cons_of_mem _ hb)
    · simp only [if_neg hk] at hb
      rcases List.mem_cons.mp hb with hb | hb
      · subst hb; exact h _ (List.mem_cons_self ..)
      · exact ih (fun b hb => h b (List.mem_cons_of_mem _ hb)) b hb

theorem partitionAux_nonempty (keyDepth : Nat) :
    ∀ (pairs : List KLine) (acc : List Bucket × Bool),
      (∀ b ∈ acc.1, b.2 ≠ []) → ∀ b ∈ (partitionAux keyDepth pairs acc).1, b.2 ≠ [] := by
  intro pairs
  induction pairs with
  | nil => intro acc hacc b hb; exact hacc b hb
  | cons p rest ih =>
    intro acc hacc b hb
    cases hg : p.1[keyDepth]? with
    | none =>
      simp only [partitionAux, hg] at hb
      exact ih (acc.1, true) hacc b hb
    | some kp =>
      simp only [partitionAux, hg] at hb
      exact ih _ (addToBuckets_nonempty acc.1 kp p hacc) b hb

theorem partitionPairs_nonempty {keyDepth : Nat} {pairs : List KLine} :
    ∀ b ∈ (partitionPairs keyDepth pairs).1, b.2 ≠ [] :=
  partitionAux_nonempty keyDepth pairs ([], false) (by simp)

/-! ## Adaptive pruning (LogTreeNode._build_children, while loop)

The while loop repeatedly filters out buckets with fewer lines than the
current threshold and doubles the threshold until at most
MAX_CHILDREN_COUNT buckets survive.  The loop result is the surviving
bucket list together with the threshold used by the last filter pass.
-/

def maxKeyLen (pairs : List KLine) : Nat :=
  (pairs.map (fun p => p.1.length)).foldr max 0

theorem maxKeyLen_cons (q : KLine) (rest : List KLine) :
    maxKeyLen (q :: rest) = max q.1.length (maxKeyLen rest) := rfl

theorem le_maxKeyLen_of_mem {pairs : List KLine} {p : KLine} (h : p ∈ pairs) :
    p.1.length ≤ maxKeyLen pairs := by
  induction pairs with
  | nil => cases h
  | cons q rest ih =>
    rw [maxKeyLen_cons]
    rcases List.mem_cons.mp h with h | h
    · subst h; omega
    · have := ih h; omega

theorem maxKeyLen_le {pairs : List KLine} {m : Nat}
    (h : ∀ p ∈ pairs, p.1.length ≤ m) : maxKeyLen pairs ≤ m := by
  induction pairs with
  | nil => simp [maxKeyLen]
  | cons q rest ih =>
    rw [maxKeyLen_cons]
    have h1 := h q (List.mem_cons_self ..)
    have h2 := ih (fun p hp => h p (List.mem_cons_of_mem _ hp))
    omega

def maxBucketSize (bs : List Bucket) : Nat :=
  (bs.map (fun b => b.2.length)).foldr max 0

theorem maxBucketSize_cons (b : Bucket) (rest : List Bucket) :
    maxBucketSize (b :: rest) = max b.2.length (maxBucketSize rest) := rfl

theorem le_maxBucketSize_of_mem {bs : List Bucket} {b : Bucket} (h : b ∈ bs) :
    b.2.length ≤ maxBucketSize bs := by
  induction bs with
  | nil => cases h
  | cons q rest ih =>
    rw [maxBucketSize_cons]
    rcases List.mem_cons.mp h with h | h
    · subst h; omega
    · have := ih h; omega

theorem maxBucketSize_le {bs : List Bucket} {m : Nat}
    (h : ∀ b ∈ bs, b.2.length ≤ m) : maxBucketSize bs ≤ m := by
  induction bs with
  | nil => simp [maxBucketSize]
  | cons q rest ih =>
    rw [maxBucketSize_cons]
    have h1 := h q (List.mem_cons_self ..)
    have h2 := ih (fun b hb => h b (List.mem_cons_of_mem _ hb))
    omega

theorem maxBucketSize_filter (p : Bucket → Bool) (bs : List Bucket) :
    maxBucketSize (bs.filter p) ≤ maxBucketSize bs :=
  maxBucketSize_le
    (fun _ hb => le_maxBucketSize_of_mem (List.mem_of_mem_filter hb))

def pruneLoop (buckets : List Bucket) (threshold : Nat) (ht : 0 < threshold) :
    List Bucket × Nat :=
  let kept := buckets.filter (fun b => decide (threshold ≤ b.2.length))
  if kept.length ≤ MAX_CHILDREN_COUNT then (kept, threshold)
  else pruneLoop kept (threshold * 2) (by omega)
termination_by maxBucketSize buckets + 1 - threshold
decreasing_by
  rename_i hgt
  have hne : kept ≠ [] := by
    intro hnil
    rw [hnil] at hgt
    simp [MAX_CHILDREN_COUNT] at hgt
  obtain ⟨b, hb⟩ := List.exists_mem_of_ne_nil kept hne
  have hthr : threshold ≤ b.2.length := by
    have := List.of_mem_filter hb
    simpa using this
  have hbb : b.2.length ≤ maxBucketSize buckets :=
    le_maxBucketSize_of_mem (List.mem_of_mem_filter hb)
  have hmono : maxBucketSize kept ≤ maxBucketSize buckets :=
    maxBucketSize_filter _ _
  have hfi :
      maxBucketSize (buckets.filter (fun b => decide (threshold ≤ b.2.length))) =
        maxBucketSize kept := rfl
  omega

theorem pruneLoop_spec :
    ∀ (n : Nat) (bs : List Bucket) (t : Nat) (ht : 0 < t),
      maxBucketSize bs + 1 - t ≤ n →
      (pruneLoop bs t ht).1 =
          bs.filter (fun b => decide ((pruneLoop bs t ht).2 ≤ b.2.length)) ∧
        t ≤ (pruneLoop bs t ht).2 ∧
        (pruneLoop bs t ht).1.length ≤ MAX_CHILDREN_COUNT := by
  intro n
  induction n with
  | zero =>
    intro bs t ht hm
    have hempty : bs.filter (fun b => decide (t ≤ b.2.length)) = [] := by
      rw [List.filter_eq_nil_iff]
      intro b hb
      have := le_maxBucketSize_of_mem hb
      simp only [decide_eq_true_eq]
      omega
    have hres : pruneLoop bs t ht = ([], t) := by
      rw [pruneLoop.eq_def]
      simp [hempty, MAX_CHILDREN_COUNT]
    rw [hres]
    refine ⟨by simp [hempty], Nat.le_refl t, by simp [MAX_CHILDREN_COUNT]⟩
  | succ n ih =>
    intro bs t ht hm
    by_cases hlen :
        (bs.filter (fun b => decide (t ≤ b.2.length))).length ≤ MAX_CHILDREN_COUNT
    · have hres : pruneLoop bs t ht = (bs.filter (fun b => decide (t ≤ b.2.length)), t) := by
        rw [pruneLoop.eq_def]
        simp only [if_pos hlen]
      rw [hres]
      exact ⟨rfl, Nat.le_refl t, hlen⟩
    · set kept := bs.filter (fun b => decide (t ≤ b.2.length)) with hkept
      have hres : pruneLoop bs t ht = pruneLoop kept (t * 2) (by omega) := by
        rw [pruneLoop.eq_def]
        simp only [if_neg hlen]
      rw [hres]
      have hne : kept ≠ [] := by
        intro hnil
        rw [hnil] at hlen
        simp [MAX_CHILDREN_COUNT] at hlen
      obtain ⟨b, hb⟩ := List.exists_mem_of_ne_nil kept hne
      have hthr : t ≤ b.2.length := by
        have := List.of_mem_filter hb
        simpa using this
      have hbb : b.2.length ≤ maxBucketSize bs :=
        le_maxBucketSize_of_mem (List.mem_of_mem_filter hb)
      have hmeas : maxBucketSize kept + 1 - t * 2 ≤ n := by
        have hmono : maxBucketSize kept ≤ maxBucketSize bs :=
          maxBucketSize_filter _ _
        omega
      obtain ⟨h1, h2, h3⟩ := ih kept (t * 2) (by omega) hmeas
      refine ⟨?_, by omega, h3⟩
      rw [h1, hkept, List.filter_filter]
      apply List.filter_congr
      intro b hb
      by_cases hble : (pruneLoop kept (t * 2) (by omega)).2 ≤ b.2.length
      · have ht2 : t ≤ b.2.length := by omega
        simp [hble, ht2]
      · simp [hble]

/-! ## The log tree (LogTreeNode) -/

inductive LogTreeNode : Type where
  | mk (value : Str) (depth : Nat) (log : List Str) (children : List LogTreeNode)

def LogTreeNode.value : LogTreeNode → Str
  | .mk v _ _ _ => v

def LogTreeNode.depth : LogTreeNode → Nat
  | .mk _ d _ _ => d

def LogTreeNode.log : LogTreeNode → List Str
  | .mk _ _ lg _ => lg

def LogTreeNode.children : LogTreeNode → List LogTreeNode
  | .mk _ _ _ cs => cs

@[simp] theorem LogTreeNode.value_mk (v : Str) (d : Nat) (lg : List Str)
    (cs : List LogTreeNode) : (LogTreeNode.mk v d lg cs).value = v := rfl

@[simp] theorem LogTreeNode.depth_mk (v : Str) (d : Nat) (lg : List Str)
    (cs : List LogTreeNode) : (LogTreeNode.mk v d lg cs).depth = d := rfl

@[simp] theorem LogTreeNode.log_mk (v : Str) (d : Nat) (lg : List Str)
    (cs : List LogTreeNode) : (LogTreeNode.mk v d lg cs).log = lg := rfl

@[simp] theorem LogTreeNode.children_mk (v : Str) (d : Nat) (lg : List Str)
    (cs : List LogTreeNode) : (LogTreeNode.mk v d lg cs).children = cs := rfl

-- lexicographic ≤ on python strings (used by list.sort(key=lambda c: c.value))
def strLe : Str → Str → Bool
  | [], _ => true
  | _ :: _, [] => false
  | a :: as, b :: bs => if a = b then strLe as bs else decide (a < b)

/-- self._children.sort(key=lambda c: c.value): python's sort is a stable
ascending sort, modelled by the stable insertion sort on the value order. -/
def sortChildren (cs : List LogTreeNode) : List LogTreeNode :=
  List.insertionSort (fun a b => strLe a.value b.value = true) cs

theorem sortChildren_perm (cs : List LogTreeNode) : (sortChildren cs).Perm cs :=
  List.perm_insertionSort _ cs

/-! ## Tree construction (LogTreeNode.__init__ and _build_children)

`buildNode pairs value depth keyDepth` models
`LogTreeNode(lines_data, value, depth, key_depth)`: it stores the lines,
truncates an over-long value and stops, and otherwise builds children
while below the depth cap, sorting them by value.

`buildChildren` models `_build_children`: it partitions the pairs at
`keyDepth`; with exactly one keyword bucket and no final lines it merges
the keyword into the value (chain compression) and recurses one key
deeper (re-checking the value cap, truncating and stopping on overflow);
otherwise it prunes the buckets adaptively and builds one child per
surviving bucket.  The merged value is the single dict key
(`''.join(keywords)`).
-/

mutual

def buildNode (pairs : List KLine) (value : Str) (depth keyDepth : Nat) :
    LogTreeNode :=
  let lines := pairs.map Prod.snd
  if MAX_VALUE_LENGTH < value.length then
    .mk (value.take MAX_VALUE_LENGTH) depth lines []
  else if depth < MAX_LAYERS_COUNT then
    let vc := buildChildren pairs value depth keyDepth
    .mk vc.1 depth lines (sortChildren vc.2)
  else
    .mk value depth lines []
termination_by (maxKeyLen pairs + 1 - keyDepth, 1)

def buildChildren (pairs : List KLine) (value : Str) (depth keyDepth : Nat) :
    Str × List LogTreeNode :=
  match hpp : partitionPairs keyDepth pairs with
  | ([(k, ps)], false) =>
    let v := if value = [] then k else value ++ ' ' :: k
    if MAX_VALUE_LENGTH < v.length then (v.take MAX_VALUE_LENGTH, [])
    else buildChildren pairs v depth (keyDepth + 1)
  | (buckets, _) =>
    (value,
      ((pruneLoop buckets MIN_LINES_COUNT (by decide)).1.attach.map
        (fun b => buildNode b.1.2 b.1.1 (depth + 1) (keyDepth + 1))))
termination_by (maxKeyLen pairs + 1 - keyDepth, 0)
decreasing_by
  · -- chain compression: recurse at keyDepth + 1 with the same pairs
    have hmem : (k, ps) ∈ (partitionPairs keyDepth pairs).1 := by
      rw [hpp]; exact List.mem_cons_self ..
    have hne : ps ≠ [] := partitionPairs_nonempty _ hmem
    obtain ⟨q, hq⟩ := List.exists_mem_of_ne_nil ps hne
    obtain ⟨hqp, hqk⟩ := partitionPairs_mem hmem q hq
    obtain ⟨hlt, -⟩ := List.getElem?_eq_some_iff.mp hqk
    have hmax := le_maxKeyLen_of_mem hqp
    apply Prod.Lex.left
    omega
  · -- per-bucket recursion: the bucket's pairs sit strictly deeper
    rename_i hb
    obtain ⟨hfil, hth, -⟩ :=
      pruneLoop_spec (maxBucketSize buckets + 1 - MIN_LINES_COUNT) buckets
        MIN_LINES_COUNT (by decide) (Nat.le_refl _)
    have hbf : (b : Bucket) ∈ buckets.filter
        (fun x => decide ((pruneLoop buckets MIN_LINES_COUNT (by decide)).2 ≤ x.2.length)) := by
      rw [← hfil]; exact b.2
    have hbk : (b : Bucket) ∈ buckets := List.mem_of_mem_filter hbf
    have hbp : ((b : Bucket).1, (b : Bucket).2) ∈ (partitionPairs keyDepth pairs).1 := by
      rw [hpp]
      exact hbk
    have hlensome : ∀ q ∈ (b : Bucket).2,
        q ∈ pairs ∧ q.1[keyDepth]? = some (b : Bucket).1 :=
      partitionPairs_mem hbp
    have hlen5 := List.of_mem_filter hbf
    simp only [decide_eq_true_eq] at hlen5
    have h5 : 5 ≤ (pruneLoop buckets MIN_LINES_COUNT (by decide)).2 := hth
    have hne : (b : Bucket).2 ≠ [] := by
      intro hnil
      rw [hnil] at hlen5
      simp only [List.length_nil] at hlen5
      omega
    obtain ⟨q, hq⟩ := List.exists_mem_of_ne_nil _ hne
    obtain ⟨hqp, hqk⟩ := hlensome q hq
    obtain ⟨hlt, -⟩ := List.getElem?_eq_some_iff.mp hqk
    have hmaxq := le_maxKeyLen_of_mem hqp
    have hmaxb : maxKeyLen (b : Bucket).2 ≤ maxKeyLen pairs :=
      maxKeyLen_le (fun p hp => le_maxKeyLen_of_mem (hlensome p hp).1)
    apply Prod.Lex.left
    omega

end

def buildTree (loglines : List Str) : LogTreeNode :=
  buildNode (loglines.map (fun l => (getKeywords l, l))) [] 0 0

/-- Label accumulated by the chain-compression merge: each token of `ts`
is appended to the running label `v` with a separating space (or starts
the label when it is empty), exactly as the merge branch of
`buildChildren` does. -/
def accJoin (v : Str) : List Str → Str
  | [] => v
  | t :: ts => accJoin (if v = [] then t else v ++ ' ' :: t) ts

/-- All nodes of a tree (the node itself and, recursively, the nodes of
its children). -/
def nodes (n : LogTreeNode) : List LogTreeNode :=
  n :: (n.children.attach.map (fun c => nodes c.1)).flatten
termination_by n
decreasing_by
  have h1 := List.sizeOf_lt_of_mem c.2
  cases n
  simp [LogTreeNode.children] at h1 ⊢
  omega

/-! ## Path lookup (LogTreeNode.get_subtree)

`startsWith s p` models python's `s.startswith(p)`.
-/

def startsWith : Str → Str → Bool
  | _, [] => true
  | [], _ :: _ => false
  | a :: s, b :: p => a = b && startsWith s p

def getSubtree (n : LogTreeNode) (path : Str) : Option LogTreeNode :=
  if startsWith n.value path then some n
  else if !(startsWith path n.value) then none
  else
    let childPath := stripWs (path.drop n.value.length)
    if childPath = [] then some n
    else n.children.attach.findSome? (fun c => getSubtree c.1 childPath)
termination_by n
decreasing_by
  have h1 := List.sizeOf_lt_of_mem c.2
  cases n
  simp [LogTreeNode.children] at h1 ⊢
  omega

/-- Modelled from the spec: `render_path` does not appear in src/; the
spec describes a node's rendered path as the node values along the
root-to-node path joined by single spaces. -/
def renderPath (vals : List Str) : Str :=
  List.intercalate [' '] vals

/-- Value chain of a root-to-node descent: `DescendVals n vs` holds when
`vs` lists the values of successive children leading from `n` down to
some node of the tree. -/
inductive DescendVals : LogTreeNode → List Str → Prop where
  | nil : ∀ n, DescendVals n []
  | cons : ∀ (n c : LogTreeNode) (vs : List Str), c ∈ n.children →
      DescendVals c vs → DescendVals n (c.value :: vs)

/-! ## The view model (LogModel)

Only the `_displayed_objects` bookkeeping is modelled: `activated` toggles
the row under the cursor, splicing the node's children in right after it,
or removing the contiguous run of deeper rows following it.
-/

def insertChildren (objs : List LogTreeNode) (row : Nat) (x : LogTreeNode) :
    List LogTreeNode :=
  objs.take (row + 1) ++ x.children ++ objs.drop (row + 1)

/-- The while loop of `_remove_children`: starting at `row`, skip rows
whose depth exceeds `parentDepth` and return the first index at or past
`row` that stops the scan. -/
def skipRun (objs : List LogTreeNode) (parentDepth : Nat) (row : Nat) : Nat :=
  match h : objs[row]? with
  | some n => if parentDepth < n.depth then skipRun objs parentDepth (row + 1) else row
  | none => row
termination_by objs.length - row
decreasing_by
  obtain ⟨hlt, -⟩ := List.getElem?_eq_some_iff.mp h
  omega

def removeChildren (objs : List LogTreeNode) (row : Nat) : List LogTreeNode :=
  match objs[row]? with
  | some x => objs.take (row + 1) ++ objs.drop (skipRun objs x.depth (row + 1))
  | none => objs

def activated (objs : List LogTreeNode) (row : Nat) : List LogTreeNode :=
  match objs[row]?, objs[row + 1]? with
  | none, _ => objs
  | some x, none => insertChildren objs row x
  | some x, some y =>
    if y.depth ≤ x.depth then insertChildren objs row x
    else removeChildren objs row

/-! ## The scrollable view (TextView)

`cursorRow` is the cursor position inside the window, `row`/`col` the top
left corner of the window inside the content, `height` the viewport
height (the construction subtracts the border), and `rowCount` the cached
content row count.  Python integers are unbounded and the intermediate
values go negative, so all fields are integers.
-/

-- python's builtins min/max on integers
def pyMin (a b : Int) : Int := if a ≤ b then a else b

def pyMax (a b : Int) : Int := if a ≤ b then b else a

structure TVState where
  cursorRow : Int
  row : Int
  col : Int
  rowCount : Int
  height : Int
deriving DecidableEq

def moveCursorUp (s : TVState) (value : Int) : TVState :=
  let c := s.cursorRow - value
  if c < 0 then { s with row := pyMax 0 (s.row + c), cursorRow := 0 }
  else { s with cursorRow := c }

def moveCursorDown (s : TVState) (value : Int) : TVState :=
  let newSel := pyMin (s.row + s.cursorRow + value) (s.rowCount - 1)
  if newSel - s.row < s.height then { s with cursorRow := newSel - s.row }
  else
    let r := pyMax 0 (newSel - s.height + 1)
    { s with row := r, cursorRow := newSel - r }

inductive ViewOp : Type where
  | up
  | down
  | pgUp
  | pgDown
deriving DecidableEq

def applyOp (s : TVState) (o : ViewOp) : TVState :=
  match o with
  | .up => moveCursorUp s 1
  | .down => moveCursorDown s 1
  | .pgUp => moveCursorUp s (s.height - 1)
  | .pgDown => moveCursorDown s (s.height - 1)

def applyOps (s : TVState) (ops : List ViewOp) : TVState :=
  ops.foldl applyOp s

/-- TextView.on_data_changed: reset the horizontal scroll, scroll up
minimally when rows were appended, otherwise reset the window origin,
then cache the new row count. -/
def onDataChanged (s : TVState) (newRowCount : Int) : TVState :=
  if s.rowCount < newRowCount then
    let linesToShow := pyMin s.height (newRowCount - s.rowCount)
    let linesBelowCursor := s.height - s.cursorRow - 1
    let desiredScrollUp := pyMax 0 (linesToShow - linesBelowCursor)
    let scrollUp := pyMin s.cursorRow desiredScrollUp
    { s with col := 0, row := s.row + scrollUp, cursorRow := s.cursorRow - scrollUp,
             rowCount := newRowCount }
  else
    { s with col := 0, row := 0, rowCount := newRowCount }

/-! ## View invariant -/

/-- The TextView invariant: positive viewport and content, nonnegative
origin, cursor inside the window, absolute cursor row inside the content. -/
abbrev viewInv (s : TVState) : Prop :=
  0 < s.height ∧ 0 < s.rowCount ∧ 0 ≤ s.row ∧ 0 ≤ s.cursorRow ∧
  s.cursorRow < s.height ∧ s.row + s.cursorRow ≤ s.rowCount - 1

theorem moveCursorUp_inv (s : TVState) (v : Int) (hv : 0 ≤ v)
    (h : viewInv s) : viewInv (moveCursorUp s v) := by
  obtain ⟨h1, h2, h3, h4, h5, h6⟩ := h
  simp only [viewInv, moveCursorUp, pyMax]
  split_ifs <;> simp_all <;> omega

theorem moveCursorDown_inv (s : TVState) (v : Int) (hv : 0 ≤ v)
    (h : viewInv s) : viewInv (moveCursorDown s v) := by
  obtain ⟨h1, h2, h3, h4, h5, h6⟩ := h
  simp only [viewInv, moveCursorDown, pyMin, pyMax]
  split_ifs <;> simp_all <;> omega

theorem applyOp_inv (s : TVState) (o : ViewOp) (h : viewInv s) :
    viewInv (applyOp s o) := by
  have h1 := h.1
  cases o with
  | up => exact moveCursorUp_inv s 1 (by omega) h
  | down => exact moveCursorDown_inv s 1 (by omega) h
  | pgUp => exact moveCursorUp_inv s (s.height - 1) (by omega) h
  | pgDown => exact moveCursorDown_inv s (s.height - 1) (by omega) h

theorem applyOps_inv (ops : List ViewOp) (s : TVState) (h : viewInv s) :
    viewInv (applyOps s ops) := by
  induction ops generalizing s with
  | nil => exact h
  | cons o rest ih => exact ih (applyOp s o) (applyOp_inv s o h)

/-- Claim C2 counterexample: a node whose `value` "ab" is a string prefix
of the path "abc"; the claim says get_subtree must return the node, but
the code checks `value.startswith(path)` (path a prefix of value), finds
the path not a prefix of anything below, and fails. -/
theorem claim2_cex :
    startsWith ['a', 'b', 'c'] ['a', 'b'] = true ∧
    getSubtree (.mk ['a', 'b'] 0 [] []) ['a', 'b', 'c'] = none := by
  constructor
  · decide
  · rw [getSubtree.eq_def]
    simp [startsWith, stripWs, dropTrailing, pySpace, List.attach]

/-- Claim C2 (amended): get_subtree returns the node itself whenever the
path is a string prefix of the node's `value` (value.startswith(path));
otherwise, if the node's `value` is not a prefix of the path, it fails. -/
theorem claim2_theorem (n : LogTreeNode) (path : Str) :
    (startsWith n.value path = true → getSubtree n path = some n) ∧
    (startsWith n.value path = false → startsWith path n.value = false →
      getSubtree n path = none) := by
  constructor
  · intro h
    rw [getSubtree.eq_def]
    simp [h]
  · intro h1 h2
    rw [getSubtree.eq_def]
    simp [h1, h2]

theorem claim2_witness :
    getSubtree (.mk ['a'] 0 [] []) ['a'] = some (.mk ['a'] 0 [] []) ∧
    getSubtree (.mk ['a'] 0 [] []) ['b'] = none :=
  ⟨(claim2_theorem (.mk ['a'] 0 [] []) ['a']).1 (by decide),
   (claim2_theorem (.mk ['a'] 0 [] []) ['b']).2 (by decide) (by decide)⟩

/-- Claim C5: for a view with positive viewport height and positive fixed
row count, any sequence of Up/Down/PageUp/PageDown operations started in
a state satisfying the invariant keeps origin ≤ absolute cursor row <
origin + viewportHeight and keeps the absolute cursor row in
[0, rowCount - 1]. -/
theorem claim5_theorem (ops : List ViewOp) (s : TVState) (h : viewInv s) :
    viewInv (applyOps s ops) ∧
    (applyOps s ops).row ≤ (applyOps s ops).row + (applyOps s ops).cursorRow ∧
    (applyOps s ops).row + (applyOps s ops).cursorRow <
      (applyOps s ops).row + (applyOps s ops).height ∧
    0 ≤ (applyOps s ops).row + (applyOps s ops).cursorRow ∧
    (applyOps s ops).row + (applyOps s ops).cursorRow ≤
      (applyOps s ops).rowCount - 1 := by
  have hinv := applyOps_inv ops s h
  obtain ⟨h1, h2, h3, h4, h5, h6⟩ := hinv
  refine ⟨applyOps_inv ops s h, by omega, by omega, by omega, by omega⟩

theorem claim5_witness :
    viewInv (applyOps ⟨0, 0, 0, 5, 3⟩ [.down, .pgDown, .up, .pgUp, .down]) :=
  (claim5_theorem [.down, .pgDown, .up, .pgUp, .down] ⟨0, 0, 0, 5, 3⟩
    (by decide)).1

/-- Claim C6 counterexample: cursorRow 2, origin 0, 5 rows, viewport 5;
the content shrinks to 1 row.  on_data_changed resets the origin and
keeps cursorRow, so the absolute cursor row stays 2, outside
[0, newRowCount - 1] = [0, 0]: the cursor is not clamped. -/
theorem claim6_cex :
    (onDataChanged ⟨2, 0, 0, 5, 5⟩ 1).row +
        (onDataChanged ⟨2, 0, 0, 5, 5⟩ 1).cursorRow = 2 ∧
    (onDataChanged ⟨2, 0, 0, 5, 5⟩ 1).rowCount = 1 ∧
    ¬((onDataChanged ⟨2, 0, 0, 5, 5⟩ 1).row +
        (onDataChanged ⟨2, 0, 0, 5, 5⟩ 1).cursorRow ≤ 1 - 1) := by
  decide

/-- Claim C6 (amended): on_data_changed does not clamp the cursor.  When
the row count grew, the absolute cursor row is preserved (the view only
scrolls up minimally); when it did not grow, the origin is reset to 0 and
the in-window cursor position is kept unchanged, so the absolute cursor
row may lie outside the new bounds.  The new row count is cached either
way. -/
theorem claim6_theorem (s : TVState) (newCount : Int) :
    (s.rowCount < newCount →
      (onDataChanged s newCount).row + (onDataChanged s newCount).cursorRow =
          s.row + s.cursorRow ∧
        (onDataChanged s newCount).rowCount = newCount) ∧
    (¬s.rowCount < newCount →
      (onDataChanged s newCount).row = 0 ∧
        (onDataChanged s newCount).cursorRow = s.cursorRow ∧
        (onDataChanged s newCount).rowCount = newCount) := by
  constructor
  · intro h
    simp only [onDataChanged, pyMin, pyMax, if_pos h]
    constructor
    · omega
    · trivial
  · intro h
    simp only [onDataChanged, if_neg h]
    refine ⟨?_, ?_, ?_⟩ <;> first | rfl | trivial

theorem claim6_witness :
    (onDataChanged ⟨1, 2, 0, 5, 4⟩ 9).row +
        (onDataChanged ⟨1, 2, 0, 5, 4⟩ 9).cursorRow = 3 ∧
    (onDataChanged ⟨2, 0, 0, 5, 5⟩ 1).row = 0 ∧
    (onDataChanged ⟨2, 0, 0, 5, 5⟩ 1).cursorRow = 2 := by
  obtain ⟨ha, -⟩ := (claim6_theorem ⟨1, 2, 0, 5, 4⟩ 9).1 (by decide)
  obtain ⟨hb, hc, -⟩ := (claim6_theorem ⟨2, 0, 0, 5, 5⟩ 1).2 (by decide)
  refine ⟨?_, hb, by rw [hc]⟩
  rw [ha]
  norm_num

theorem skipRun_drop (objs : List LogTreeNode) (d : Nat) :
    ∀ i, objs.drop (skipRun objs d i) =
      (objs.drop i).dropWhile (fun n => decide (d < n.depth)) := by
  have hgen : ∀ fuel i, objs.length - i ≤ fuel →
      objs.drop (skipRun objs d i) =
        (objs.drop i).dropWhile (fun n => decide (d < n.depth)) := by
    intro fuel
    induction fuel with
    | zero =>
      intro i hi
      have hnone : objs[i]? = none := List.getElem?_eq_none_iff.mpr (by omega)
      rw [skipRun]
      split
      · next n hg =>
          rw [hnone] at hg
          cases hg
      · rw [List.drop_eq_nil_of_le (by omega : objs.length ≤ i)]
        simp
    | succ fuel ih =>
      intro i hi
      rw [skipRun]
      split
      · next n hg =>
          obtain ⟨hlt, hget⟩ := List.getElem?_eq_some_iff.mp hg
          have hdrop : objs.drop i = n :: objs.drop (i + 1) := by
            rw [List.drop_eq_getElem_cons hlt, hget]
          by_cases hdep : d < n.depth
          · rw [if_pos hdep]
            rw [ih (i + 1) (by omega), hdrop]
            rw [List.dropWhile_cons]
            simp [hdep]
          · rw [if_neg hdep]
            rw [hdrop, List.dropWhile_cons]
            simp [hdep]
      · next hg =>
          have h := List.getElem?_eq_none_iff.mp hg
          rw [List.drop_eq_nil_of_le (by omega : objs.length ≤ i)]
          simp
  intro i
  exact hgen (objs.length - i) i (Nat.le_refl _)

/-- Claim C7: toggling activation on an expanded row (the following row
is strictly deeper) removes exactly the contiguous run of rows after it
whose depth exceeds the node's depth, keeping the prefix up to the row
and the remaining suffix unchanged. -/
theorem claim7_theorem (objs : List LogTreeNode) (row : Nat)
    (x y : LogTreeNode) (hx : objs[row]? = some x)
    (hy : objs[row + 1]? = some y) (hd : x.depth < y.depth) :
    activated objs row =
      objs.take (row + 1) ++
        (objs.drop (row + 1)).dropWhile (fun n => decide (x.depth < n.depth)) := by
  unfold activated
  rw [hx, hy]
  show (if y.depth ≤ x.depth then insertChildren objs row x
        else removeChildren objs row) = _
  rw [if_neg (by omega)]
  unfold removeChildren
  rw [hx]
  show objs.take (row + 1) ++ objs.drop (skipRun objs x.depth (row + 1)) = _
  rw [skipRun_drop]

theorem claim7_witness :
    activated
        [.mk ['a'] 0 [] [], .mk ['b'] 1 [] [], .mk ['c'] 2 [] [],
          .mk ['d'] 0 [] []] 0 =
      [.mk ['a'] 0 [] [], .mk ['d'] 0 [] []] := by
  have h := claim7_theorem
    [.mk ['a'] 0 [] [], .mk ['b'] 1 [] [], .mk ['c'] 2 [] [], .mk ['d'] 0 [] []]
    0 (.mk ['a'] 0 [] []) (.mk ['b'] 1 [] []) rfl rfl (by decide)
  rw [h]
  rfl

/-! ## Further partition facts -/

def bucketLines (bs : List Bucket) : List KLine :=
  (bs.map (fun b => b.2)).flatten

theorem bucketLines_cons (b : Bucket) (rest : List Bucket) :
    bucketLines (b :: rest) = b.2 ++ bucketLines rest := rfl

theorem addToBuckets_flatten (bs : List Bucket) (k : Str) (p : KLine) :
    (bucketLines (addToBuckets bs k p)).Perm (bucketLines bs ++ [p]) := by
  induction bs with
  | nil => simp [addToBuckets, bucketLines]
  | cons b rest ih =>
    obtain ⟨k₀, ps₀⟩ := b
    simp only [addToBuckets]
    by_cases hk : k₀ = k
    · rw [if_pos hk, bucketLines_cons, bucketLines_cons, List.append_assoc,
        List.append_assoc]
      exact List.Perm.append_left ps₀ List.perm_append_comm
    · rw [if_neg hk, bucketLines_cons, bucketLines_cons, List.append_assoc]
      exact List.Perm.append_left ps₀ ih

theorem partitionAux_flatten (keyDepth : Nat) :
    ∀ (pairs : List KLine) (acc : List Bucket × Bool),
      (bucketLines (partitionAux keyDepth pairs acc).1).Perm
        (bucketLines acc.1 ++
          pairs.filter (fun p => (p.1[keyDepth]?).isSome)) := by
  intro pairs
  induction pairs with
  | nil => intro acc; simp [partitionAux]
  | cons p rest ih =>
    intro acc
    cases hg : p.1[keyDepth]? with
    | none =>
      simp only [partitionAux, hg]
      have h := ih (acc.1, true)
      rw [List.filter_cons]
      simp only [hg, Option.isSome_none, Bool.false_eq_true, if_false]
      exact h
    | some k =>
      simp only [partitionAux, hg]
      have h := ih (addToBuckets acc.1 k p, acc.2)
      rw [List.filter_cons]
      simp only [hg, Option.isSome_some, if_true]
      refine h.trans ?_
      refine (List.Perm.append_right _ (addToBuckets_flatten acc.1 k p)).trans ?_
      rw [List.append_assoc]
      exact List.Perm.refl _

theorem partitionPairs_flatten (keyDepth : Nat) (pairs : List KLine) :
    (bucketLines (partitionPairs keyDepth pairs).1).Perm
      (pairs.filter (fun p => (p.1[keyDepth]?).isSome)) := by
  have h := partitionAux_flatten keyDepth pairs ([], false)
  simpa [bucketLines] using h

theorem partitionAux_final (keyDepth : Nat) :
    ∀ (pairs : List KLine) (acc : List Bucket × Bool),
      (partitionAux keyDepth pairs acc).2 =
        (acc.2 || pairs.any (fun p => (p.1[keyDepth]?).isNone)) := by
  intro pairs
  induction pairs with
  | nil => intro acc; simp [partitionAux]
  | cons p rest ih =>
    intro acc
    cases hg : p.1[keyDepth]? with
    | none =>
      simp only [partitionAux, hg]
      rw [ih (acc.1, true)]
      rw [List.any_cons, hg]
      simp only [Option.isNone_none]
      cases acc.2 <;> simp
    | some k =>
      simp only [partitionAux, hg]
      rw [ih (addToBuckets acc.1 k p, acc.2)]
      rw [List.any_cons, hg]
      simp only [Option.isNone_some]
      cases acc.2 <;> simp

theorem partitionPairs_final (keyDepth : Nat) (pairs : List KLine) :
    (partitionPairs keyDepth pairs).2 =
      pairs.any (fun p => (p.1[keyDepth]?).isNone) := by
  have h := partitionAux_final keyDepth pairs ([], false)
  simpa using h

theorem partitionAux_single (keyDepth : Nat) (k : Str) :
    ∀ (pairs : List KLine), (∀ p ∈ pairs, p.1[keyDepth]? = some k) →
      ∀ ps₀, partitionAux keyDepth pairs ([(k, ps₀)], false) =
        ([(k, ps₀ ++ pairs)], false) := by
  intro pairs
  induction pairs with
  | nil => intro _ ps₀; simp [partitionAux]
  | cons p rest ih =>
    intro h ps₀
    have hg := h p (List.mem_cons_self ..)
    have hadd : addToBuckets [(k, ps₀)] k p = [(k, ps₀ ++ [p])] := by
      simp [addToBuckets]
    simp only [partitionAux, hg, hadd]
    rw [ih (fun q hq => h q (List.mem_cons_of_mem _ hq)) (ps₀ ++ [p])]
    simp

theorem partitionPairs_single (keyDepth : Nat) (k : Str) (pairs : List KLine)
    (hne : pairs ≠ []) (h : ∀ p ∈ pairs, p.1[keyDepth]? = some k) :
    partitionPairs keyDepth pairs = ([(k, pairs)], false) := by
  cases pairs with
  | nil => cases hne rfl
  | cons p rest =>
    have hg := h p (List.mem_cons_self ..)
    have hadd : addToBuckets [] k p = [(k, [p])] := rfl
    unfold partitionPairs
    simp only [partitionAux, hg, hadd]
    rw [partitionAux_single keyDepth k rest
      (fun q hq => h q (List.mem_cons_of_mem _ hq)) [p]]
    simp

theorem addToBuckets_sub (bs : List Bucket) (k : Str) (p : KLine)
    (D : List KLine) (hacc : ∀ b ∈ bs, b.2.Sublist D) :
    ∀ b ∈ addToBuckets bs k p, b.2.Sublist (D ++ [p]) := by
  induction bs with
  | nil =>
    intro b hb
    simp [addToBuckets] at hb
    subst hb
    simp
  | cons b₀ rest ih =>
    obtain ⟨k₀, ps₀⟩ := b₀
    intro b hb
    simp only [addToBuckets] at hb
    by_cases hk : k₀ = k
    · rw [if_pos hk] at hb
      rcases List.mem_cons.mp hb with hb | hb
      · subst hb
        exact List.Sublist.append (hacc (k₀, ps₀) (List.mem_cons_self ..))
          (List.Sublist.refl [p])
      · exact (hacc b (List.mem_cons_of_mem _ hb)).trans (List.sublist_append_left D [p])
    · rw [if_neg hk] at hb
      rcases List.mem_cons.mp hb with hb | hb
      · subst hb
        exact (hacc (k₀, ps₀) (List.mem_cons_self ..)).trans
          (List.sublist_append_left D [p])
      · exact ih (fun q hq => hacc q (List.mem_cons_of_mem _ hq)) b hb

theorem partitionAux_sub (keyDepth : Nat) :
    ∀ (pairs : List KLine) (acc : List Bucket × Bool) (D : List KLine),
      (∀ b ∈ acc.1, b.2.Sublist D) →
      ∀ b ∈ (partitionAux keyDepth pairs acc).1, b.2.Sublist (D ++ pairs) := by
  intro pairs
  induction pairs with
  | nil =>
    intro acc D hacc b hb
    simpa using hacc b hb
  | cons p rest ih =>
    intro acc D hacc b hb
    cases hg : p.1[keyDepth]? with
    | none =>
      simp only [partitionAux, hg] at hb
      have h := ih (acc.1, true) D hacc b hb
      exact h.trans (List.append_sublist_append_left D |>.mpr
        (List.sublist_cons_self p rest))
    | some k =>
      simp only [partitionAux, hg] at hb
      have h := ih (addToBuckets acc.1 k p, acc.2) (D ++ [p])
        (addToBuckets_sub acc.1 k p D hacc) b hb
      rw [List.append_assoc] at h
      simpa using h

theorem partitionPairs_sub (keyDepth : Nat) (pairs : List KLine) :
    ∀ b ∈ (partitionPairs keyDepth pairs).1, b.2.Sublist pairs := by
  intro b hb
  have h := partitionAux_sub keyDepth pairs ([], false) [] (by simp) b hb
  simpa using h

/-! ## Unfolding lemmas for the builder -/

theorem minLinesPos : 0 < MIN_LINES_COUNT := by decide

theorem buildChildren_merge (pairs : List KLine) (v : Str) (d kd : Nat)
    (k : Str) (ps : List KLine)
    (hpp : partitionPairs kd pairs = ([(k, ps)], false)) :
    buildChildren pairs v d kd =
      (if MAX_VALUE_LENGTH < (if v = [] then k else v ++ ' ' :: k).length then
        ((if v = [] then k else v ++ ' ' :: k).take MAX_VALUE_LENGTH, [])
      else buildChildren pairs (if v = [] then k else v ++ ' ' :: k) d (kd + 1)) := by
  rw [buildChildren.eq_def]
  split
  · next k' ps' heq =>
    rw [hpp] at heq
    have hk : k = k' := by
      have := congrArg (fun x => x.1) heq
      simp at this
      exact this.1
    subst hk
    rfl
  · next bs hf hnomatch hscrut =>
    rw [hpp] at hscrut
    have h1 : bs = [(k, ps)] := (congrArg Prod.fst hscrut).symm
    have h2 : hf = false := (congrArg Prod.snd hscrut).symm
    exact absurd (hnomatch k ps h1 h2) (by simp)

theorem buildChildren_terminal (pairs : List KLine) (v : Str) (d kd : Nat)
    (hns : ∀ k ps, partitionPairs kd pairs ≠ ([(k, ps)], false)) :
    buildChildren pairs v d kd =
      (v,
        (pruneLoop (partitionPairs kd pairs).1 MIN_LINES_COUNT minLinesPos).1.attach.map
          (fun b => buildNode b.1.2 b.1.1 (d + 1) (kd + 1))) := by
  rw [buildChildren.eq_def]
  split
  · next k' ps' heq =>
    exact absurd heq (hns k' ps')
  · next bs hf hnomatch hscrut =>
    rw [hscrut]

theorem buildNode_trunc (pairs : List KLine) (value : Str) (d kd : Nat)
    (h : MAX_VALUE_LENGTH < value.length) :
    buildNode pairs value d kd =
      .mk (value.take MAX_VALUE_LENGTH) d (pairs.map Prod.snd) [] := by
  rw [buildNode.eq_def]
  simp [h]

theorem buildNode_deep (pairs : List KLine) (value : Str) (d kd : Nat)
    (h1 : ¬MAX_VALUE_LENGTH < value.length) (h2 : ¬d < MAX_LAYERS_COUNT) :
    buildNode pairs value d kd = .mk value d (pairs.map Prod.snd) [] := by
  rw [buildNode.eq_def]
  simp [h1, h2]

theorem buildNode_build (pairs : List KLine) (value : Str) (d kd : Nat)
    (h1 : ¬MAX_VALUE_LENGTH < value.length) (h2 : d < MAX_LAYERS_COUNT) :
    buildNode pairs value d kd =
      .mk (buildChildren pairs value d kd).1 d (pairs.map Prod.snd)
        (sortChildren (buildChildren pairs value d kd).2) := by
  rw [buildNode.eq_def]
  simp [h1, h2]

theorem pruneLoop_nil (t : Nat) (ht : 0 < t) : pruneLoop [] t ht = ([], t) := by
  rw [pruneLoop.eq_def]
  simp [MAX_CHILDREN_COUNT]

theorem partitionAux_allNone (kd : Nat) :
    ∀ (pairs : List KLine) (acc : List Bucket × Bool),
      (∀ p ∈ pairs, p.1[kd]? = none) →
      (partitionAux kd pairs acc).1 = acc.1 := by
  intro pairs
  induction pairs with
  | nil => intro acc _; rfl
  | cons p rest ih =>
    intro acc h
    have hg := h p (List.mem_cons_self ..)
    simp only [partitionAux, hg]
    exact ih (acc.1, true) (fun q hq => h q (List.mem_cons_of_mem _ hq))

theorem buildChildren_noBuckets (pairs : List KLine) (v : Str) (d kd : Nat)
    (hall : (partitionPairs kd pairs).1 = []) :
    buildChildren pairs v d kd = (v, []) := by
  have hns : ∀ k ps, partitionPairs kd pairs ≠ ([(k, ps)], false) := by
    intro k ps hcontra
    rw [hcontra] at hall
    simp at hall
  rw [buildChildren_terminal pairs v d kd hns]
  rw [hall, pruneLoop_nil]
  simp

theorem take_cons_pos (n : Nat) (ch : Char) (t : Str) (h : 0 < n) :
    ∃ t', ((ch :: t).take n : Str) = ch :: t' := by
  cases n with
  | zero => omega
  | succ n => exact ⟨t.take n, rfl⟩

/-- What `_build_children` produces: chain compression reaches some final
key depth kd' at which either the (possibly merged) value overflowed the
cap and no children were built, or one child is built per bucket that
survives adaptive pruning at kd'.  The merged value never exceeds the cap
when the starting value did not, and its first character is preserved. -/
theorem buildChildren_spec :
    ∀ (m : Nat) (pairs : List KLine) (v : Str) (d kd : Nat),
      maxKeyLen pairs + 1 - kd ≤ m →
      ∃ kd', kd ≤ kd' ∧
        (∀ p ∈ pairs, kd ≤ p.1.length → kd' ≤ p.1.length) ∧
        (v.length ≤ MAX_VALUE_LENGTH →
          (buildChildren pairs v d kd).1.length ≤ MAX_VALUE_LENGTH) ∧
        (∀ ch t, v = ch :: t → ∃ t', (buildChildren pairs v d kd).1 = ch :: t') ∧
        ((buildChildren pairs v d kd).2 = [] ∨
          (buildChildren pairs v d kd).2 =
            (pruneLoop (partitionPairs kd' pairs).1 MIN_LINES_COUNT
                minLinesPos).1.attach.map
              (fun b => buildNode b.1.2 b.1.1 (d + 1) (kd' + 1))) := by
  intro m
  induction m with
  | zero =>
    intro pairs v d kd hm
    have hall : ∀ p ∈ pairs, p.1[kd]? = none := by
      intro p hp
      have := le_maxKeyLen_of_mem hp
      exact List.getElem?_eq_none_iff.mpr (by omega)
    have hnb : (partitionPairs kd pairs).1 = [] :=
      partitionAux_allNone kd pairs ([], false) hall
    rw [buildChildren_noBuckets pairs v d kd hnb]
    exact ⟨kd, Nat.le_refl kd, fun p _ h => h, fun h => h,
      fun ch t ht => ⟨t, ht⟩, Or.inl rfl⟩
  | succ m ih =>
    intro pairs v d kd hm
    by_cases hsing : ∃ k ps, partitionPairs kd pairs = ([(k, ps)], false)
    · obtain ⟨k, ps, hpp⟩ := hsing
      have hnofin : ∀ p ∈ pairs, kd < p.1.length := by
        intro p hp
        have hf : (partitionPairs kd pairs).2 = false := by rw [hpp]
        rw [partitionPairs_final] at hf
        have hno := List.any_eq_false.mp hf p hp
        rcases hg : p.1[kd]? with _ | w
        · rw [hg] at hno
          exact absurd rfl hno
        · obtain ⟨hlt, -⟩ := List.getElem?_eq_some_iff.mp hg
          omega
      have hmemk : (k, ps) ∈ (partitionPairs kd pairs).1 := by
        rw [hpp]; exact List.mem_cons_self ..
      have hpsne : ps ≠ [] := partitionPairs_nonempty _ hmemk
      obtain ⟨q, hq⟩ := List.exists_mem_of_ne_nil ps hpsne
      have hqp : q ∈ pairs := (partitionPairs_mem hmemk q hq).1
      have hqlen : kd < q.1.length := hnofin q hqp
      have hqmax := le_maxKeyLen_of_mem hqp
      have hmeas : maxKeyLen pairs + 1 - (kd + 1) ≤ m := by omega
      rw [buildChildren_merge pairs v d kd k ps hpp]
      by_cases hcap :
          MAX_VALUE_LENGTH < (if v = [] then k else v ++ ' ' :: k).length
      · rw [if_pos hcap]
        refine ⟨kd, Nat.le_refl kd, fun p _ h => h, ?_, ?_, Or.inl rfl⟩
        · intro _
          simp only [List.length_take]
          omega
        · intro ch t ht
          subst ht
          rw [if_neg (by simp : ¬(ch :: t : Str) = [])]
          rw [List.cons_append]
          exact take_cons_pos MAX_VALUE_LENGTH ch (t ++ ' ' :: k) (by decide)
      · rw [if_neg hcap]
        obtain ⟨kd', h1, h2, h3, h4, h5⟩ :=
          ih pairs (if v = [] then k else v ++ ' ' :: k) d (kd + 1) hmeas
        refine ⟨kd', by omega, ?_, ?_, ?_, h5⟩
        · intro p hp _
          exact h2 p hp (hnofin p hp)
        · intro _
          exact h3 (by omega)
        · intro ch t ht
          subst ht
          have hne : (ch :: t : Str) ≠ [] := by simp
          refine h4 ch (t ++ ' ' :: k) ?_
          simp [hne]
    · have hns : ∀ k ps, partitionPairs kd pairs ≠ ([(k, ps)], false) := by
        intro k ps hcontra
        exact hsing ⟨k, ps, hcontra⟩
      rw [buildChildren_terminal pairs v d kd hns]
      exact ⟨kd, Nat.le_refl kd, fun p _ h => h, fun h => h,
        fun ch t ht => ⟨t, ht⟩, Or.inr rfl⟩

/-! ## Tokenizer character facts -/

theorem splitOnSpace_nospace (s : Str) :
    ∀ piece ∈ splitOnSpace s, ∀ c ∈ piece, pySpace c = false := by
  induction s with
  | nil =>
    intro piece hp c hc
    simp [splitOnSpace] at hp
    subst hp
    cases hc
  | cons x xs ih =>
    intro piece hp c hc
    by_cases hx : pySpace x
    · simp only [splitOnSpace, if_pos hx] at hp
      rcases List.mem_cons.mp hp with hp | hp
      · subst hp; cases hc
      · exact ih piece hp c hc
    · simp only [splitOnSpace, if_neg hx] at hp
      cases hrec : splitOnSpace xs with
      | nil =>
        rw [hrec] at hp
        simp at hp
        subst hp
        simp at hc
        subst hc
        exact eq_false_of_ne_true hx
      | cons q qs =>
        rw [hrec] at hp
        rcases List.mem_cons.mp hp with hp | hp
        · subst hp
          rcases List.mem_cons.mp hc with hc | hc
          · subst hc; exact eq_false_of_ne_true hx
          · exact ih q (hrec ▸ List.mem_cons_self ..) c hc
        · exact ih piece (hrec ▸ List.mem_cons_of_mem _ hp) c hc

theorem stripSpecials_mem (s : Str) : ∀ c ∈ stripSpecials s, c ∈ s := by
  intro c hc
  unfold stripSpecials dropTrailing at hc
  have h1 : c ∈ (s.dropWhile specialChar).reverse.dropWhile specialChar :=
    List.mem_reverse.mp hc
  have h2 : c ∈ (s.dropWhile specialChar).reverse :=
    (List.dropWhile_sublist specialChar).subset h1
  have h3 : c ∈ s.dropWhile specialChar := List.mem_reverse.mp h2
  exact (List.dropWhile_sublist specialChar).subset h3

theorem getKeywords_good (line : Str) :
    ∀ tok ∈ getKeywords line, tok ≠ [] ∧ ∀ c ∈ tok, pySpace c = false := by
  intro tok htok
  unfold getKeywords at htok
  have hmemf := List.mem_of_mem_filter htok
  have hfil := List.of_mem_filter htok
  obtain ⟨piece, hpiece, hstrip⟩ := List.mem_map.mp hmemf
  constructor
  · intro hnil
    rw [hnil] at hfil
    simp at hfil
  · intro c hc
    subst hstrip
    exact splitOnSpace_nospace line piece hpiece c (stripSpecials_mem piece c hc)

/-! ## Derived builder facts -/

theorem buildNode_log (pairs : List KLine) (v : Str) (d kd : Nat) :
    (buildNode pairs v d kd).log = pairs.map Prod.snd := by
  by_cases h1 : MAX_VALUE_LENGTH < v.length
  · rw [buildNode_trunc pairs v d kd h1]; rfl
  · by_cases h2 : d < MAX_LAYERS_COUNT
    · rw [buildNode_build pairs v d kd h1 h2]; rfl
    · rw [buildNode_deep pairs v d kd h1 h2]; rfl

theorem buildNode_value_head (pairs : List KLine) (v : Str) (d kd : Nat)
    (ch : Char) (t : Str) (hv : v = ch :: t) :
    ∃ t', (buildNode pairs v d kd).value = ch :: t' := by
  subst hv
  by_cases h1 : MAX_VALUE_LENGTH < (ch :: t : Str).length
  · rw [buildNode_trunc pairs _ d kd h1]
    simp only [LogTreeNode.value_mk]
    exact take_cons_pos MAX_VALUE_LENGTH ch t (by decide)
  · by_cases h2 : d < MAX_LAYERS_COUNT
    · rw [buildNode_build pairs _ d kd h1 h2]
      simp only [LogTreeNode.value_mk]
      obtain ⟨kd', -, -, -, h4, -⟩ :=
        buildChildren_spec (maxKeyLen pairs + 1 - kd) pairs (ch :: t) d kd
          (Nat.le_refl _)
      exact h4 ch t rfl
    · rw [buildNode_deep pairs _ d kd h1 h2]
      exact ⟨t, rfl⟩

theorem buildNode_value_cap (pairs : List KLine) (v : Str) (d kd : Nat) :
    (buildNode pairs v d kd).value.length ≤ MAX_VALUE_LENGTH := by
  by_cases h1 : MAX_VALUE_LENGTH < v.length
  · rw [buildNode_trunc pairs v d kd h1]
    simp only [LogTreeNode.value_mk, List.length_take]
    omega
  · by_cases h2 : d < MAX_LAYERS_COUNT
    · rw [buildNode_build pairs v d kd h1 h2]
      simp only [LogTreeNode.value_mk]
      obtain ⟨kd', -, -, h3, -, -⟩ :=
        buildChildren_spec (maxKeyLen pairs + 1 - kd) pairs v d kd (Nat.le_refl _)
      exact h3 (by omega)
    · rw [buildNode_deep pairs v d kd h1 h2]
      simp only [LogTreeNode.value_mk]
      omega

theorem buildNode_children_spec (pairs : List KLine) (v : Str) (d kd : Nat) :
    (buildNode pairs v d kd).children = [] ∨
      ∃ kd', kd ≤ kd' ∧
        (∀ p ∈ pairs, kd ≤ p.1.length → kd' ≤ p.1.length) ∧
        (buildNode pairs v d kd).children =
          sortChildren
            ((pruneLoop (partitionPairs kd' pairs).1 MIN_LINES_COUNT
                minLinesPos).1.attach.map
              (fun b => buildNode b.1.2 b.1.1 (d + 1) (kd' + 1))) := by
  by_cases h1 : MAX_VALUE_LENGTH < v.length
  · rw [buildNode_trunc pairs v d kd h1]
    exact Or.inl rfl
  · by_cases h2 : d < MAX_LAYERS_COUNT
    · rw [buildNode_build pairs v d kd h1 h2]
      simp only [LogTreeNode.children_mk]
      obtain ⟨kd', hk1, hk2, -, -, h5⟩ :=
        buildChildren_spec (maxKeyLen pairs + 1 - kd) pairs v d kd (Nat.le_refl _)
      rcases h5 with h5 | h5
      · rw [h5]
        exact Or.inl rfl
      · rw [h5]
        exact Or.inr ⟨kd', hk1, hk2, rfl⟩
    · rw [buildNode_deep pairs v d kd h1 h2]
      exact Or.inl rfl

theorem mem_nodes (x n : LogTreeNode) :
    n ∈ nodes x ↔ n = x ∨ ∃ c ∈ x.children, n ∈ nodes c := by
  rw [nodes.eq_def]
  constructor
  · intro h
    rcases List.mem_cons.mp h with h | h
    · exact Or.inl h
    · obtain ⟨l, hl, hnl⟩ := List.mem_flatten.mp h
      obtain ⟨c, hc, hcl⟩ := List.mem_map.mp hl
      exact Or.inr ⟨c.1, c.2, hcl ▸ hnl⟩
  · intro h
    rcases h with h | ⟨c, hc, hnc⟩
    · exact h ▸ List.mem_cons_self ..
    · refine List.mem_cons_of_mem _ (List.mem_flatten.mpr ⟨nodes c, ?_, hnc⟩)
      exact List.mem_map.mpr ⟨⟨c, hc⟩, List.mem_attach _ _, rfl⟩

theorem filter_map_snd (R : Str → Bool) (pairs : List KLine) :
    (pairs.filter (fun p => R p.2)).map Prod.snd =
      (pairs.map Prod.snd).filter R := by
  induction pairs with
  | nil => rfl
  | cons p rest ih =>
    by_cases h : R p.2
    · simp [List.filter_cons, h, ih]
    · simp [List.filter_cons, h, ih]

theorem bucketLines_append (A B : List Bucket) :
    bucketLines (A ++ B) = bucketLines A ++ bucketLines B := by
  simp [bucketLines]

theorem bucketLines_perm {A B : List Bucket} (h : A.Perm B) :
    (bucketLines A).Perm (bucketLines B) :=
  (h.map _).flatten

/-- Properties of a single built node: value within the cap, at most
MAX_CHILDREN_COUNT children all of whose line counts reach the final
pruning threshold, each child's lines an order-preserving sublist of the
node's lines, the node's lines a permutation of the lines ending at the
node's effective key depth followed by the children's lines and the
pruned lines, and each child value starting with a non-blank character. -/
theorem buildNode_root_props (pairs : List KLine) (v : Str) (d kd : Nat)
    (hTok : ∀ p ∈ pairs, p.1 = getKeywords p.2)
    (hlen : ∀ p ∈ pairs, kd ≤ p.1.length) :
    (buildNode pairs v d kd).value.length ≤ MAX_VALUE_LENGTH ∧
    (buildNode pairs v d kd).children.length ≤ MAX_CHILDREN_COUNT ∧
    (∃ t, MIN_LINES_COUNT ≤ t ∧
      ∀ c ∈ (buildNode pairs v d kd).children, t ≤ c.log.length) ∧
    (∀ c ∈ (buildNode pairs v d kd).children,
      c.log.Sublist (buildNode pairs v d kd).log) ∧
    (∃ kdn rest, (buildNode pairs v d kd).log.Perm
      (((buildNode pairs v d kd).log.filter
          (fun l => decide ((getKeywords l).length = kdn))) ++
        (((buildNode pairs v d kd).children.map LogTreeNode.log).flatten ++
          rest))) ∧
    (∀ c ∈ (buildNode pairs v d kd).children,
      ∃ ch t, c.value = ch :: t ∧ pySpace ch = false) := by
  refine ⟨buildNode_value_cap pairs v d kd, ?_⟩
  rcases buildNode_children_spec pairs v d kd with hc | ⟨kd', hkd, htrans, hc⟩
  · rw [hc]
    refine ⟨by simp [MAX_CHILDREN_COUNT], ⟨MIN_LINES_COUNT, Nat.le_refl _, by simp⟩,
      by simp, ?_, by simp⟩
    refine ⟨0, (buildNode pairs v d kd).log.filter
      (fun l => !decide ((getKeywords l).length = 0)), ?_⟩
    simp only [List.map_nil, List.flatten_nil, List.nil_append]
    exact (List.filter_append_perm _ _).symm
  · have hkdlen : ∀ p ∈ pairs, kd' ≤ p.1.length := fun p hp => htrans p hp (hlen p hp)
    obtain ⟨hfil, hT5, h200⟩ :=
      pruneLoop_spec (maxBucketSize (partitionPairs kd' pairs).1 + 1 - MIN_LINES_COUNT)
        (partitionPairs kd' pairs).1 MIN_LINES_COUNT minLinesPos (Nat.le_refl _)
    have hmemL : ∀ c ∈ (buildNode pairs v d kd).children,
        c ∈ (pruneLoop (partitionPairs kd' pairs).1 MIN_LINES_COUNT
          minLinesPos).1.attach.map
            (fun b => buildNode b.1.2 b.1.1 (d + 1) (kd' + 1)) := by
      intro c hcc
      rw [hc] at hcc
      exact (sortChildren_perm _).subset hcc
    have hkeptsub : ∀ b ∈ (pruneLoop (partitionPairs kd' pairs).1 MIN_LINES_COUNT
        minLinesPos).1, b ∈ (partitionPairs kd' pairs).1 := by
      intro b hb
      rw [hfil] at hb
      exact List.mem_of_mem_filter hb
    have hkeptT : ∀ b ∈ (pruneLoop (partitionPairs kd' pairs).1 MIN_LINES_COUNT
        minLinesPos).1,
        (pruneLoop (partitionPairs kd' pairs).1 MIN_LINES_COUNT minLinesPos).2 ≤
          b.2.length := by
      intro b hb
      rw [hfil] at hb
      have := List.of_mem_filter hb
      simpa using this
    refine ⟨?_, ?_, ?_, ?_, ?_⟩
    · -- children count
      rw [hc]
      rw [(sortChildren_perm _).length_eq]
      simp only [List.length_map, List.length_attach]
      exact h200
    · -- threshold
      refine ⟨(pruneLoop (partitionPairs kd' pairs).1 MIN_LINES_COUNT minLinesPos).2,
        hT5, ?_⟩
      intro c hcc
      obtain ⟨b, hb, rfl⟩ := List.mem_map.mp (hmemL c hcc)
      rw [buildNode_log]
      simp only [List.length_map]
      exact hkeptT b.1 b.2
    · -- sublist
      intro c hcc
      obtain ⟨b, hb, rfl⟩ := List.mem_map.mp (hmemL c hcc)
      rw [buildNode_log, buildNode_log]
      exact (partitionPairs_sub kd' pairs b.1 (hkeptsub b.1 b.2)).map Prod.snd
    · -- the permutation account
      refine ⟨kd', (bucketLines ((partitionPairs kd' pairs).1.filter
        (fun b => !decide ((pruneLoop (partitionPairs kd' pairs).1 MIN_LINES_COUNT
          minLinesPos).2 ≤ b.2.length)))).map Prod.snd, ?_⟩
      have hpointwise : ∀ p ∈ pairs,
          (!(p.1[kd']?).isSome) = decide ((getKeywords p.2).length = kd') := by
        intro p hp
        rw [← hTok p hp]
        by_cases hlt : kd' < p.1.length
        · rw [List.getElem?_eq_getElem hlt]
          have hne : ¬p.1.length = kd' := by omega
          simp [hne]
        · have hnone : p.1[kd']? = none := List.getElem?_eq_none_iff.mpr (by omega)
          rw [hnone]
          have heq : p.1.length = kd' := by
            have := hkdlen p hp
            omega
          simp [heq]
      have hsplit : pairs.Perm
          (pairs.filter (fun p => !(p.1[kd']?).isSome) ++
            pairs.filter (fun p => (p.1[kd']?).isSome)) :=
        (List.perm_append_comm.trans
          (List.filter_append_perm (fun p => (p.1[kd']?).isSome) pairs)).symm
      have hfinals : (pairs.filter (fun p => !(p.1[kd']?).isSome)).map Prod.snd =
          (pairs.map Prod.snd).filter
            (fun l => decide ((getKeywords l).length = kd')) := by
        rw [List.filter_congr
          (q := fun p => decide ((getKeywords p.2).length = kd')) hpointwise]
        exact filter_map_snd (fun l => decide ((getKeywords l).length = kd')) pairs
      have hbsplit : (partitionPairs kd' pairs).1.Perm
          ((pruneLoop (partitionPairs kd' pairs).1 MIN_LINES_COUNT minLinesPos).1 ++
            (partitionPairs kd' pairs).1.filter
              (fun b => !decide ((pruneLoop (partitionPairs kd' pairs).1
                MIN_LINES_COUNT minLinesPos).2 ≤ b.2.length))) := by
        rw [hfil]
        exact (List.filter_append_perm _ _).symm
      have hflat : (((buildNode pairs v d kd).children.map LogTreeNode.log).flatten).Perm
          ((bucketLines (pruneLoop (partitionPairs kd' pairs).1 MIN_LINES_COUNT
            minLinesPos).1).map Prod.snd) := by
        rw [hc]
        refine ((sortChildren_perm _).map LogTreeNode.log).flatten.trans ?_
        rw [List.map_map]
        rw [List.map_congr_left (g := fun b => b.1.2.map Prod.snd)
          (fun b _ => by simp [Function.comp, buildNode_log])]
        have hattach : ((pruneLoop (partitionPairs kd' pairs).1 MIN_LINES_COUNT
            minLinesPos).1.attach.map (fun b => b.1.2.map Prod.snd)) =
            ((pruneLoop (partitionPairs kd' pairs).1 MIN_LINES_COUNT
              minLinesPos).1.map (fun b => b.2.map Prod.snd)) :=
          List.attach_map_coe _ (fun x : Bucket => x.2.map Prod.snd)
        rw [hattach]
        have hbl : (bucketLines (pruneLoop (partitionPairs kd' pairs).1
            MIN_LINES_COUNT minLinesPos).1).map Prod.snd =
            ((pruneLoop (partitionPairs kd' pairs).1 MIN_LINES_COUNT
              minLinesPos).1.map (fun b => b.2.map Prod.snd)).flatten := by
          unfold bucketLines
          rw [List.map_flatten, List.map_map]
          rfl
        rw [hbl]
      rw [buildNode_log]
      refine (hsplit.map Prod.snd).trans ?_
      rw [List.map_append, hfinals]
      have hlogfil : ((pairs.map Prod.snd).filter
          (fun l => decide ((getKeywords l).length = kd'))) =
          (((buildNode pairs v d kd).log).filter
            (fun l => decide ((getKeywords l).length = kd'))) := by
        rw [buildNode_log]
      rw [hlogfil]
      refine List.Perm.append_left _ ?_
      refine ((partitionPairs_flatten kd' pairs).symm.map Prod.snd).trans ?_
      refine ((bucketLines_perm hbsplit).map Prod.snd).trans ?_
      rw [bucketLines_append, List.map_append]
      exact List.Perm.append_right _ hflat.symm
    · -- child values start with a non-blank character
      intro c hcc
      obtain ⟨b, hb, rfl⟩ := List.mem_map.mp (hmemL c hcc)
      have hbb : b.1 ∈ (partitionPairs kd' pairs).1 := hkeptsub b.1 b.2
      have hbne : b.1.2 ≠ [] := partitionPairs_nonempty b.1 hbb
      obtain ⟨q, hq⟩ := List.exists_mem_of_ne_nil _ hbne
      obtain ⟨hqpairs, hqget⟩ := partitionPairs_mem hbb q hq
      have hkeymem : b.1.1 ∈ q.1 := List.getElem?_mem hqget
      rw [hTok q hqpairs] at hkeymem
      obtain ⟨hkne, hknospace⟩ := getKeywords_good q.2 b.1.1 hkeymem
      obtain ⟨ch, t, hcht⟩ := List.exists_cons_of_ne_nil hkne
      obtain ⟨t', hval⟩ := buildNode_value_head b.1.2 b.1.1 (d + 1) (kd' + 1) ch t hcht
      exact ⟨ch, t', hval, hknospace ch (hcht ▸ List.mem_cons_self ..)⟩

/-- All nodes of a built tree satisfy the per-node properties of
`buildNode_root_props` (strong induction on the remaining key depth). -/
theorem buildNode_nodes_spec :
    ∀ (m : Nat) (pairs : List KLine) (v : Str) (d kd : Nat),
      maxKeyLen pairs + 1 - kd ≤ m →
      (∀ p ∈ pairs, p.1 = getKeywords p.2) →
      (∀ p ∈ pairs, kd ≤ p.1.length) →
      ∀ n ∈ nodes (buildNode pairs v d kd),
        n.value.length ≤ MAX_VALUE_LENGTH ∧
        n.children.length ≤ MAX_CHILDREN_COUNT ∧
        (∃ t, MIN_LINES_COUNT ≤ t ∧ ∀ c ∈ n.children, t ≤ c.log.length) ∧
        (∀ c ∈ n.children, c.log.Sublist n.log) ∧
        (∃ kdn rest, n.log.Perm
          ((n.log.filter (fun l => decide ((getKeywords l).length = kdn))) ++
            ((n.children.map LogTreeNode.log).flatten ++ rest))) ∧
        (∀ c ∈ n.children, ∃ ch t, c.value = ch :: t ∧ pySpace ch = false) := by
  intro m
  induction m with
  | zero =>
    intro pairs v d kd hm hTok hlen n hn
    have hempty : (buildNode pairs v d kd).children = [] := by
      rcases buildNode_children_spec pairs v d kd with h | ⟨kd', hkd, htrans, h⟩
      · exact h
      · have hall : ∀ p ∈ pairs, p.1[kd']? = none := by
          intro p hp
          have h1 := le_maxKeyLen_of_mem hp
          exact List.getElem?_eq_none_iff.mpr (by omega)
        have hnb : (partitionPairs kd' pairs).1 = [] :=
          partitionAux_allNone kd' pairs ([], false) hall
        rw [h, hnb, pruneLoop_nil]
        rfl
    rcases (mem_nodes _ n).mp hn with rfl | ⟨c, hcmem, -⟩
    · exact buildNode_root_props pairs v d kd hTok hlen
    · rw [hempty] at hcmem
      cases hcmem
  | succ m ih =>
    intro pairs v d kd hm hTok hlen n hn
    rcases (mem_nodes _ n).mp hn with rfl | ⟨c, hcmem, hnc⟩
    · exact buildNode_root_props pairs v d kd hTok hlen
    · rcases buildNode_children_spec pairs v d kd with hempty | ⟨kd', hkd, htrans, hcs⟩
      · rw [hempty] at hcmem
        cases hcmem
      · rw [hcs] at hcmem
        have hcL := (sortChildren_perm _).subset hcmem
        obtain ⟨b, hb, rfl⟩ := List.mem_map.mp hcL
        obtain ⟨hfil, hT5, -⟩ :=
          pruneLoop_spec
            (maxBucketSize (partitionPairs kd' pairs).1 + 1 - MIN_LINES_COUNT)
            (partitionPairs kd' pairs).1 MIN_LINES_COUNT minLinesPos (Nat.le_refl _)
        have hbb : b.1 ∈ (partitionPairs kd' pairs).1 := by
          have hbf : (b : Bucket) ∈ (partitionPairs kd' pairs).1.filter
              (fun x => decide ((pruneLoop (partitionPairs kd' pairs).1
                MIN_LINES_COUNT minLinesPos).2 ≤ x.2.length)) := by
            rw [← hfil]
            exact b.2
          exact List.mem_of_mem_filter hbf
        have hmempairs := partitionPairs_mem hbb
        have hTok2 : ∀ p ∈ b.1.2, p.1 = getKeywords p.2 :=
          fun p hp => hTok p (hmempairs p hp).1
        have hlen2 : ∀ p ∈ b.1.2, kd' + 1 ≤ p.1.length := by
          intro p hp
          obtain ⟨hlt, -⟩ := List.getElem?_eq_some_iff.mp (hmempairs p hp).2
          omega
        have hbne : b.1.2 ≠ [] := partitionPairs_nonempty b.1 hbb
        obtain ⟨q, hq⟩ := List.exists_mem_of_ne_nil _ hbne
        have hqpairs := (hmempairs q hq).1
        obtain ⟨hqlt, -⟩ := List.getElem?_eq_some_iff.mp (hmempairs q hq).2
        have hqmaxP := le_maxKeyLen_of_mem hqpairs
        have hmaxB : maxKeyLen b.1.2 ≤ maxKeyLen pairs :=
          maxKeyLen_le (fun p hp => le_maxKeyLen_of_mem (hmempairs p hp).1)
        have hqmaxB := le_maxKeyLen_of_mem hq
        have hmeas : maxKeyLen b.1.2 + 1 - (kd' + 1) ≤ m := by omega
        exact ih b.1.2 b.1.1 (d + 1) (kd' + 1) hmeas hTok2 hlen2 n hnc

theorem buildTree_nodes_spec (loglines : List Str) :
    ∀ n ∈ nodes (buildTree loglines),
      n.value.length ≤ MAX_VALUE_LENGTH ∧
      n.children.length ≤ MAX_CHILDREN_COUNT ∧
      (∃ t, MIN_LINES_COUNT ≤ t ∧ ∀ c ∈ n.children, t ≤ c.log.length) ∧
      (∀ c ∈ n.children, c.log.Sublist n.log) ∧
      (∃ kdn rest, n.log.Perm
        ((n.log.filter (fun l => decide ((getKeywords l).length = kdn))) ++
          ((n.children.map LogTreeNode.log).flatten ++ rest))) ∧
      (∀ c ∈ n.children, ∃ ch t, c.value = ch :: t ∧ pySpace ch = false) := by
  intro n hn
  refine buildNode_nodes_spec
    (maxKeyLen (loglines.map (fun l => (getKeywords l, l))) + 1)
    (loglines.map (fun l => (getKeywords l, l))) [] 0 0 (by omega) ?_ ?_ n hn
  · intro p hp
    obtain ⟨l, -, rfl⟩ := List.mem_map.mp hp
    rfl
  · intro p hp
    omega

/-- Claim C3: in a built tree no node has more than MAX_CHILDREN_COUNT
direct children, and there is a final pruning threshold t (at least
MIN_LINES_COUNT, produced by the adaptive doubling loop) such that every
direct child holds at least t lines. -/
theorem claim3_theorem (loglines : List Str) :
    ∀ n ∈ nodes (buildTree loglines),
      n.children.length ≤ MAX_CHILDREN_COUNT ∧
      ∃ t, MIN_LINES_COUNT ≤ t ∧ ∀ c ∈ n.children, t ≤ c.log.length := by
  intro n hn
  obtain ⟨-, h2, h3, -, -, -⟩ := buildTree_nodes_spec loglines n hn
  exact ⟨h2, h3⟩

theorem claim3_witness :
    (buildTree []).children.length ≤ MAX_CHILDREN_COUNT :=
  (claim3_theorem [] (buildTree []) ((mem_nodes _ _).mpr (Or.inl rfl))).1

/-- Claim C9: an over-long label is truncated to exactly
MAX_VALUE_LENGTH characters and the node gets no children, both at
construction and after chain-compression merging; consequently every
node value in a built tree is at most MAX_VALUE_LENGTH characters. -/
theorem claim9_theorem :
    (∀ (pairs : List KLine) (v : Str) (d kd : Nat),
      MAX_VALUE_LENGTH < v.length →
      buildNode pairs v d kd =
          .mk (v.take MAX_VALUE_LENGTH) d (pairs.map Prod.snd) [] ∧
        (v.take MAX_VALUE_LENGTH).length = MAX_VALUE_LENGTH) ∧
    (∀ (pairs : List KLine) (v : Str) (d kd : Nat) (k : Str) (ps : List KLine),
      partitionPairs kd pairs = ([(k, ps)], false) →
      MAX_VALUE_LENGTH < (if v = [] then k else v ++ ' ' :: k).length →
      buildChildren pairs v d kd =
          ((if v = [] then k else v ++ ' ' :: k).take MAX_VALUE_LENGTH, []) ∧
        ((if v = [] then k else v ++ ' ' :: k).take MAX_VALUE_LENGTH).length =
          MAX_VALUE_LENGTH) ∧
    (∀ loglines : List Str, ∀ n ∈ nodes (buildTree loglines),
      n.value.length ≤ MAX_VALUE_LENGTH) := by
  refine ⟨?_, ?_, ?_⟩
  · intro pairs v d kd h
    refine ⟨buildNode_trunc pairs v d kd h, ?_⟩
    simp only [List.length_take]
    omega
  · intro pairs v d kd k ps hpp h
    rw [buildChildren_merge pairs v d kd k ps hpp]
    rw [if_pos h]
    refine ⟨rfl, ?_⟩
    simp only [List.length_take]
    omega
  · intro loglines n hn
    exact (buildTree_nodes_spec loglines n hn).1

/-- Claim C10: every non-root node of a built tree holds at least
MIN_LINES_COUNT lines; the first pruning pass applies the initial
threshold unconditionally. -/
theorem claim10_theorem (loglines : List Str) :
    ∀ n ∈ nodes (buildTree loglines), ∀ c ∈ n.children,
      MIN_LINES_COUNT ≤ c.log.length := by
  intro n hn c hc
  obtain ⟨-, -, ⟨t, ht, hall⟩, -, -, -⟩ := buildTree_nodes_spec loglines n hn
  exact le_trans ht (hall c hc)

theorem ne_single_of_final {kd : Nat} {pairs : List KLine} {bs : List Bucket}
    (h : partitionPairs kd pairs = (bs, true)) :
    ∀ k ps, partitionPairs kd pairs ≠ ([(k, ps)], false) := by
  intro k ps hc
  rw [h] at hc
  have h2 := congrArg Prod.snd hc
  simp at h2

theorem ne_single_of_length {kd : Nat} {pairs : List KLine} {bs : List Bucket}
    {hf : Bool} (h : partitionPairs kd pairs = (bs, hf)) (hlen : bs.length ≠ 1) :
    ∀ k ps, partitionPairs kd pairs ≠ ([(k, ps)], false) := by
  intro k ps hc
  rw [h] at hc
  have h2 := congrArg (fun x => x.1.length) hc
  simp at h2
  exact hlen h2

theorem pruneLoop_small (bs : List Bucket) (t : Nat) (ht : 0 < t)
    (h : (bs.filter (fun b => decide (t ≤ b.2.length))).length ≤ MAX_CHILDREN_COUNT) :
    pruneLoop bs t ht = (bs.filter (fun b => decide (t ≤ b.2.length)), t) := by
  rw [pruneLoop.eq_def]
  simp only [if_pos h]

theorem buildTree_ex1 : buildTree [['a',' ','b'], ['a',' ','b'], ['a',' ','b'],
      ['a',' ','b'], ['a',' ','b'], ['a']] =
    .mk ['a'] 0 [['a',' ','b'], ['a',' ','b'], ['a',' ','b'], ['a',' ','b'],
        ['a',' ','b'], ['a']]
      [.mk ['b'] 1 [['a',' ','b'], ['a',' ','b'], ['a',' ','b'], ['a',' ','b'],
        ['a',' ','b']] []] := by
  have hpp2 : partitionPairs 2
      [([['a'],['b']], ['a',' ','b']), ([['a'],['b']], ['a',' ','b']),
       ([['a'],['b']], ['a',' ','b']), ([['a'],['b']], ['a',' ','b']),
       ([['a'],['b']], ['a',' ','b'])] = ([], true) := by decide
  have hch : buildNode
      [([['a'],['b']], ['a',' ','b']), ([['a'],['b']], ['a',' ','b']),
       ([['a'],['b']], ['a',' ','b']), ([['a'],['b']], ['a',' ','b']),
       ([['a'],['b']], ['a',' ','b'])] (['b'] : Str) 1 2 =
      .mk ['b'] 1 [['a',' ','b'], ['a',' ','b'], ['a',' ','b'], ['a',' ','b'],
        ['a',' ','b']] [] := by
    rw [buildNode_build _ _ _ _ (by decide) (by decide)]
    rw [buildChildren_terminal _ _ _ _ (ne_single_of_final hpp2)]
    rw [hpp2, pruneLoop_nil]
    rfl
  have hpp1 : partitionPairs 1
      [([['a'],['b']], ['a',' ','b']), ([['a'],['b']], ['a',' ','b']),
       ([['a'],['b']], ['a',' ','b']), ([['a'],['b']], ['a',' ','b']),
       ([['a'],['b']], ['a',' ','b']), ([['a']], ['a'])] =
      ([(['b'],
        [([['a'],['b']], ['a',' ','b']), ([['a'],['b']], ['a',' ','b']),
         ([['a'],['b']], ['a',' ','b']), ([['a'],['b']], ['a',' ','b']),
         ([['a'],['b']], ['a',' ','b'])])], true) := by decide
  have hbc1 : buildChildren
      [([['a'],['b']], ['a',' ','b']), ([['a'],['b']], ['a',' ','b']),
       ([['a'],['b']], ['a',' ','b']), ([['a'],['b']], ['a',' ','b']),
       ([['a'],['b']], ['a',' ','b']), ([['a']], ['a'])] (['a'] : Str) 0 1 =
      (['a'], [buildNode
        [([['a'],['b']], ['a',' ','b']), ([['a'],['b']], ['a',' ','b']),
         ([['a'],['b']], ['a',' ','b']), ([['a'],['b']], ['a',' ','b']),
         ([['a'],['b']], ['a',' ','b'])] (['b'] : Str) 1 2]) := by
    rw [buildChildren_terminal _ _ _ _ (ne_single_of_final hpp1)]
    rw [hpp1, pruneLoop_small _ _ _ (by decide)]
    rw [List.attach_map_coe _ (fun x : Bucket => buildNode x.2 x.1 1 2)]
    rfl
  have hpp0 : partitionPairs 0
      [([['a'],['b']], ['a',' ','b']), ([['a'],['b']], ['a',' ','b']),
       ([['a'],['b']], ['a',' ','b']), ([['a'],['b']], ['a',' ','b']),
       ([['a'],['b']], ['a',' ','b']), ([['a']], ['a'])] =
      ([(['a'],
        [([['a'],['b']], ['a',' ','b']), ([['a'],['b']], ['a',' ','b']),
         ([['a'],['b']], ['a',' ','b']), ([['a'],['b']], ['a',' ','b']),
         ([['a'],['b']], ['a',' ','b']), ([['a']], ['a'])])], false) := by decide
  have hbc0 : buildChildren
      [([['a'],['b']], ['a',' ','b']), ([['a'],['b']], ['a',' ','b']),
       ([['a'],['b']], ['a',' ','b']), ([['a'],['b']], ['a',' ','b']),
       ([['a'],['b']], ['a',' ','b']), ([['a']], ['a'])] ([] : Str) 0 0 =
      (['a'], [buildNode
        [([['a'],['b']], ['a',' ','b']), ([['a'],['b']], ['a',' ','b']),
         ([['a'],['b']], ['a',' ','b']), ([['a'],['b']], ['a',' ','b']),
         ([['a'],['b']], ['a',' ','b'])] (['b'] : Str) 1 2]) := by
    rw [buildChildren_merge _ _ _ _ _ _ hpp0]
    norm_num
    exact hbc1
  unfold buildTree
  rw [(by decide :
    ([['a',' ','b'], ['a',' ','b'], ['a',' ','b'], ['a',' ','b'],
      ['a',' ','b'], ['a']].map (fun l => (getKeywords l, l))) =
    [([['a'],['b']], ['a',' ','b']), ([['a'],['b']], ['a',' ','b']),
     ([['a'],['b']], ['a',' ','b']), ([['a'],['b']], ['a',' ','b']),
     ([['a'],['b']], ['a',' ','b']), ([['a']], ['a'])])]
  rw [buildNode_build _ _ _ _ (by decide) (by decide)]
  rw [hbc0, hch]
  rfl

theorem claim9_witness :
    buildNode [] (List.replicate 81 'a') 0 0 =
        .mk ((List.replicate 81 'a').take MAX_VALUE_LENGTH) 0 [] [] ∧
    buildChildren [([List.replicate 81 'b'], ['x'])] [] 0 0 =
        ((if ([] : Str) = [] then List.replicate 81 'b'
          else [] ++ ' ' :: List.replicate 81 'b').take MAX_VALUE_LENGTH, []) ∧
    (buildTree []).value.length ≤ MAX_VALUE_LENGTH := by
  refine ⟨?_, ?_, ?_⟩
  · exact (claim9_theorem.1 [] (List.replicate 81 'a') 0 0 (by decide)).1
  · exact (claim9_theorem.2.1 [([List.replicate 81 'b'], ['x'])] [] 0 0
      (List.replicate 81 'b') [([List.replicate 81 'b'], ['x'])] (by decide)
      (by decide)).1
  · exact claim9_theorem.2.2 [] (buildTree []) ((mem_nodes _ _).mpr (Or.inl rfl))

theorem claim10_witness :
    MIN_LINES_COUNT ≤ (LogTreeNode.mk ['b'] 1
      [['a',' ','b'], ['a',' ','b'], ['a',' ','b'], ['a',' ','b'],
       ['a',' ','b']] []).log.length := by
  apply claim10_theorem
      [['a',' ','b'], ['a',' ','b'], ['a',' ','b'], ['a',' ','b'],
       ['a',' ','b'], ['a']]
      (buildTree [['a',' ','b'], ['a',' ','b'], ['a',' ','b'], ['a',' ','b'],
       ['a',' ','b'], ['a']])
      ((mem_nodes _ _).mpr (Or.inl rfl))
  rw [buildTree_ex1]
  simp [LogTreeNode.children]

theorem buildTree_ex3 : buildTree [['a',' ','x'], ['a',' ','x',' ','q']] =
    .mk ['a',' ','x'] 0 [['a',' ','x'], ['a',' ','x',' ','q']] [] := by
  have hpp0 : partitionPairs 0
      [([['a'],['x']], ['a',' ','x']), ([['a'],['x'],['q']], ['a',' ','x',' ','q'])] =
      ([(['a'],
        [([['a'],['x']], ['a',' ','x']),
         ([['a'],['x'],['q']], ['a',' ','x',' ','q'])])], false) := by decide
  have hpp1 : partitionPairs 1
      [([['a'],['x']], ['a',' ','x']), ([['a'],['x'],['q']], ['a',' ','x',' ','q'])] =
      ([(['x'],
        [([['a'],['x']], ['a',' ','x']),
         ([['a'],['x'],['q']], ['a',' ','x',' ','q'])])], false) := by decide
  have hpp2 : partitionPairs 2
      [([['a'],['x']], ['a',' ','x']), ([['a'],['x'],['q']], ['a',' ','x',' ','q'])] =
      ([(['q'], [([['a'],['x'],['q']], ['a',' ','x',' ','q'])])], true) := by decide
  have hbc2 : buildChildren
      [([['a'],['x']], ['a',' ','x']), ([['a'],['x'],['q']], ['a',' ','x',' ','q'])]
      (['a',' ','x'] : Str) 0 2 = (['a',' ','x'], []) := by
    rw [buildChildren_terminal _ _ _ _ (ne_single_of_final hpp2)]
    rw [hpp2, pruneLoop_small _ _ _ (by decide)]
    rfl
  have hbc1 : buildChildren
      [([['a'],['x']], ['a',' ','x']), ([['a'],['x'],['q']], ['a',' ','x',' ','q'])]
      (['a'] : Str) 0 1 = (['a',' ','x'], []) := by
    rw [buildChildren_merge _ _ _ _ _ _ hpp1]
    rw [(by decide :
      (if (['a'] : Str) = [] then (['x'] : Str) else ['a'] ++ ' ' :: ['x']) =
        ['a',' ','x'])]
    rw [if_neg (by decide)]
    exact hbc2
  have hbc0 : buildChildren
      [([['a'],['x']], ['a',' ','x']), ([['a'],['x'],['q']], ['a',' ','x',' ','q'])]
      ([] : Str) 0 0 = (['a',' ','x'], []) := by
    rw [buildChildren_merge _ _ _ _ _ _ hpp0]
    rw [(by decide :
      (if ([] : Str) = [] then (['a'] : Str) else [] ++ ' ' :: ['a']) = ['a'])]
    rw [if_neg (by decide)]
    exact hbc1
  unfold buildTree
  rw [(by decide :
    ([['a',' ','x'], ['a',' ','x',' ','q']].map (fun l => (getKeywords l, l))) =
    [([['a'],['x']], ['a',' ','x']), ([['a'],['x'],['q']], ['a',' ','x',' ','q'])])]
  rw [buildNode_build _ _ _ _ (by decide) (by decide)]
  rw [hbc0]
  rfl

/-- Counterexample to claim C1 as stated: for the two input lines
"a x" and "a x q" the tree is a single childless node holding both
lines (the line "a x q" sits in a bucket that is pruned away), so no
choice of key depth makes the children's lines together with the lines
ending at that depth a permutation of the node's lines. -/
theorem claim1_cex :
    (buildTree [['a',' ','x'], ['a',' ','x',' ','q']]).log =
        [['a',' ','x'], ['a',' ','x',' ','q']] ∧
    (buildTree [['a',' ','x'], ['a',' ','x',' ','q']]).children = [] ∧
    (∀ kdn : Nat,
      ¬ (buildTree [['a',' ','x'], ['a',' ','x',' ','q']]).log.Perm
        (((buildTree [['a',' ','x'], ['a',' ','x',' ','q']]).log.filter
            (fun l => decide ((getKeywords l).length = kdn))) ++
          (((buildTree [['a',' ','x'], ['a',' ','x',' ','q']]).children.map
              LogTreeNode.log).flatten))) := by
  rw [buildTree_ex3]
  refine ⟨rfl, rfl, ?_⟩
  intro kdn h
  have hk1 : getKeywords ['a',' ','x'] = [['a'],['x']] := by decide
  have hk2 : getKeywords ['a',' ','x',' ','q'] = [['a'],['x'],['q']] := by decide
  have hlen := h.length_eq
  simp only [LogTreeNode.log, LogTreeNode.children, List.map_nil, List.flatten_nil,
    List.append_nil, List.filter_cons, List.filter_nil, hk1, hk2] at hlen
  clear h
  split_ifs at hlen with c1 c2
  · have e1 : 2 = kdn := of_decide_eq_true c1
    have e2 : 3 = kdn := of_decide_eq_true c2
    omega
  · exact absurd hlen (by decide)
  · exact absurd hlen (by decide)
  · exact absurd hlen (by decide)

/-- Claim C1 (amended): for every node of a built tree, each direct
child's lines form an order-preserving sublist of the node's lines, and
the node's lines are a permutation of the lines whose token sequence
ends at the node's effective key depth, followed by the children's
lines and a remainder of lines lost to pruned buckets; the union of the
children's lines with the terminating lines need not exhaust the node's
lines. -/
theorem claim1_theorem (loglines : List Str) :
    ∀ n ∈ nodes (buildTree loglines),
      (∀ c ∈ n.children, c.log.Sublist n.log) ∧
      ∃ kdn rest, n.log.Perm
        ((n.log.filter (fun l => decide ((getKeywords l).length = kdn))) ++
          ((n.children.map LogTreeNode.log).flatten ++ rest)) := by
  intro n hn
  obtain ⟨-, -, -, h4, h5, -⟩ := buildTree_nodes_spec loglines n hn
  exact ⟨h4, h5⟩

theorem claim1_witness :
    (∀ c ∈ (buildTree []).children, c.log.Sublist (buildTree []).log) ∧
    ∃ kdn rest, (buildTree []).log.Perm
      (((buildTree []).log.filter
          (fun l => decide ((getKeywords l).length = kdn))) ++
        (((buildTree []).children.map LogTreeNode.log).flatten ++ rest)) :=
  claim1_theorem [] (buildTree []) ((mem_nodes _ _).mpr (Or.inl rfl))

theorem accJoin_le (ts : List Str) : ∀ v : Str, v.length ≤ (accJoin v ts).length := by
  induction ts with
  | nil => intro v; exact Nat.le_refl _
  | cons t ts ih =>
    intro v
    refine le_trans ?_ (ih (if v = [] then t else v ++ ' ' :: t))
    by_cases hv : v = []
    · simp [hv]
    · simp [hv]

theorem accJoin_intercalate :
    ∀ ts : List Str, ∀ v : Str, v ≠ [] →
      accJoin v ts = List.intercalate [' '] (v :: ts) := by
  intro ts
  induction ts with
  | nil => intro v hv; simp [accJoin, List.intercalate]
  | cons t ts ih =>
    intro v hv
    show accJoin (if v = [] then t else v ++ ' ' :: t) ts = _
    rw [if_neg hv]
    rw [ih (v ++ ' ' :: t) (by simp)]
    cases ts with
    | nil => simp [List.intercalate]
    | cons u rest =>
      simp [List.intercalate, List.intersperse]

theorem accJoin_nil_intercalate (ts : List Str) (hts : ∀ t ∈ ts, t ≠ []) :
    accJoin [] ts = List.intercalate [' '] ts := by
  cases ts with
  | nil => rfl
  | cons t rest =>
    show accJoin (if ([] : Str) = [] then t else [] ++ ' ' :: t) rest = _
    rw [if_pos rfl]
    by_cases ht : t = []
    · exact absurd ht (hts t (List.mem_cons_self ..))
    · exact accJoin_intercalate rest t ht

theorem stop_no_merge {kd : Nat} {pairs : List KLine}
    (hstop : (∃ p ∈ pairs, p.1[kd]? = none) ∨
      (∃ p ∈ pairs, ∃ q ∈ pairs, p.1[kd]? ≠ q.1[kd]?)) :
    ∀ k ps, partitionPairs kd pairs ≠ ([(k, ps)], false) := by
  intro k ps hc
  have hsnd := congrArg Prod.snd hc
  rw [partitionPairs_final] at hsnd
  simp only [List.any_eq_false] at hsnd
  rcases hstop with ⟨p, hp, hnone⟩ | ⟨p, hp, q, hq, hne⟩
  · have := hsnd p hp
    rw [hnone] at this
    simp at this
  · have hfst := congrArg Prod.fst hc
    have hperm := partitionPairs_flatten kd pairs
    rw [hfst] at hperm
    have hfilter : pairs.filter (fun p => (p.1[kd]?).isSome) = pairs := by
      apply List.filter_eq_self.mpr
      intro a ha
      have h2 := hsnd a ha
      cases hxa : a.1[kd]? with
      | none => rw [hxa] at h2; simp at h2
      | some w => simp
    rw [hfilter] at hperm
    have hps : ps.Perm pairs := by
      refine List.Perm.trans ?_ hperm
      simp [bucketLines]
    have hmem : (k, ps) ∈ (partitionPairs kd pairs).1 := by
      rw [hfst]
      exact List.mem_cons_self ..
    have hpk := (partitionPairs_mem hmem p (hps.symm.subset hp)).2
    have hqk := (partitionPairs_mem hmem q (hps.symm.subset hq)).2
    rw [hpk, hqk] at hne
    exact hne rfl

theorem mergeRun :
    ∀ (ts : List Str) (pairs : List KLine) (v : Str) (d kd : Nat),
      pairs ≠ [] →
      (∀ p ∈ pairs, (p.1.drop kd).take ts.length = ts ∧
        kd + ts.length ≤ p.1.length) →
      ((∃ p ∈ pairs, p.1.length = kd + ts.length) ∨
        (∃ p ∈ pairs, ∃ q ∈ pairs,
          p.1[kd + ts.length]? ≠ q.1[kd + ts.length]?)) →
      (accJoin v ts).length ≤ MAX_VALUE_LENGTH →
      (buildChildren pairs v d kd).1 = accJoin v ts := by
  intro ts
  induction ts with
  | nil =>
    intro pairs v d kd hne hshare hstop hcap
    simp only [List.length_nil, Nat.add_zero] at hstop
    have hstop2 : (∃ p ∈ pairs, p.1[kd]? = none) ∨
        (∃ p ∈ pairs, ∃ q ∈ pairs, p.1[kd]? ≠ q.1[kd]?) := by
      rcases hstop with ⟨p, hp, hlen⟩ | h
      · exact Or.inl ⟨p, hp, List.getElem?_eq_none_iff.mpr (by omega)⟩
      · exact Or.inr h
    rw [buildChildren_terminal pairs v d kd (stop_no_merge hstop2)]
    rfl
  | cons t ts ih =>
    intro pairs v d kd hne hshare hstop hcap
    have hkey : ∀ p ∈ pairs, p.1[kd]? = some t ∧
        (p.1.drop (kd + 1)).take ts.length = ts ∧
        (kd + 1) + ts.length ≤ p.1.length := by
      intro p hp
      obtain ⟨htake, hlen⟩ := hshare p hp
      have hlt : kd < p.1.length := by
        simp only [List.length_cons] at hlen
        omega
      rw [List.drop_eq_getElem_cons hlt] at htake
      simp only [List.length_cons, List.take_succ_cons] at htake
      have h1 := List.head_eq_of_cons_eq htake
      have h2 := List.tail_eq_of_cons_eq htake
      refine ⟨?_, h2, ?_⟩
      · rw [List.getElem?_eq_getElem hlt, h1]
      · simp only [List.length_cons] at hlen
        omega
    have hpp : partitionPairs kd pairs = ([(t, pairs)], false) :=
      partitionPairs_single kd t pairs hne (fun p hp => (hkey p hp).1)
    rw [buildChildren_merge pairs v d kd t pairs hpp]
    have hacc : accJoin v (t :: ts) =
        accJoin (if v = [] then t else v ++ ' ' :: t) ts := rfl
    have hcap2 : ¬ MAX_VALUE_LENGTH <
        (if v = [] then t else v ++ ' ' :: t).length := by
      have := accJoin_le ts (if v = [] then t else v ++ ' ' :: t)
      rw [← hacc] at this
      omega
    rw [if_neg hcap2]
    have hidx : kd + (t :: ts).length = (kd + 1) + ts.length := by
      simp only [List.length_cons]
      omega
    rw [hidx] at hstop
    rw [hacc] at hcap ⊢
    exact ih pairs (if v = [] then t else v ++ ' ' :: t) d (kd + 1) hne
      (fun p hp => ⟨(hkey p hp).2.1, (hkey p hp).2.2⟩) hstop hcap

/-- Claim C4: when all input lines agree on their first `ts.length`
tokens, none runs out of tokens before that point, the shared run is
maximal there (some line ends exactly there, or two lines disagree on
the next token), and the joined label fits the value-length cap, the
built tree is headed by one single node whose value is those tokens
joined by single spaces and whose log is the whole input; chain
compression produces no intermediate single-child nodes. -/
theorem claim4_theorem (loglines : List Str) (ts : List Str)
    (hne : loglines ≠ [])
    (hshare : ∀ l ∈ loglines, ((getKeywords l).take ts.length = ts ∧
      ts.length ≤ (getKeywords l).length))
    (hstop : (∃ l ∈ loglines, (getKeywords l).length = ts.length) ∨
      (∃ l1 ∈ loglines, ∃ l2 ∈ loglines,
        (getKeywords l1)[ts.length]? ≠ (getKeywords l2)[ts.length]?))
    (hcap : (List.intercalate [' '] ts).length ≤ MAX_VALUE_LENGTH) :
    (buildTree loglines).value = List.intercalate [' '] ts ∧
    (buildTree loglines).log = loglines := by
  have hts : ∀ t ∈ ts, t ≠ [] := by
    obtain ⟨l, hl⟩ := List.exists_mem_of_ne_nil _ hne
    intro t ht
    have htake := (hshare l hl).1
    rw [← htake] at ht
    exact (getKeywords_good l t (List.take_subset _ _ ht)).1
  have hjoin : accJoin [] ts = List.intercalate [' '] ts :=
    accJoin_nil_intercalate ts hts
  have hpne : loglines.map (fun l => (getKeywords l, l)) ≠ [] := by
    simp [hne]
  constructor
  · unfold buildTree
    rw [buildNode_build _ _ _ _ (by decide) (by decide)]
    rw [LogTreeNode.value_mk]
    rw [mergeRun ts (loglines.map (fun l => (getKeywords l, l))) [] 0 0 hpne
      ?_ ?_ ?_]
    · exact hjoin
    · intro p hp
      obtain ⟨l, hl, rfl⟩ := List.mem_map.mp hp
      obtain ⟨h1, h2⟩ := hshare l hl
      refine ⟨by simpa using h1, by simpa using h2⟩
    · rcases hstop with ⟨l, hl, hlen⟩ | ⟨l1, hl1, l2, hl2, hne2⟩
      · refine Or.inl ⟨(getKeywords l, l), List.mem_map.mpr ⟨l, hl, rfl⟩, by simpa using hlen⟩
      · refine Or.inr ⟨(getKeywords l1, l1), List.mem_map.mpr ⟨l1, hl1, rfl⟩,
          (getKeywords l2, l2), List.mem_map.mpr ⟨l2, hl2, rfl⟩, by simpa using hne2⟩
    · rw [hjoin]
      exact hcap
  · unfold buildTree
    rw [buildNode_log]
    rw [List.map_map]
    exact List.map_id loglines

theorem claim4_witness :
    (buildTree [['a',' ','b']]).value = List.intercalate [' '] [['a'],['b']] ∧
    (buildTree [['a',' ','b']]).log = [['a',' ','b']] :=
  claim4_theorem [['a',' ','b']] [['a'],['b']] (by decide) (by decide)
    (Or.inl ⟨['a',' ','b'], by decide, by decide⟩) (by decide)

theorem renderPath_cons (a b : Str) (l : List Str) :
    renderPath (a :: b :: l) = a ++ ' ' :: renderPath (b :: l) := by
  simp [renderPath, List.intercalate, List.intersperse_cons_cons]

theorem renderPath_single (a : Str) : renderPath [a] = a := by
  simp [renderPath, List.intercalate]

theorem startsWith_append (a b : Str) : startsWith (a ++ b) a = true := by
  induction a with
  | nil => cases b <;> rfl
  | cons x a ih => simp [startsWith, ih]

theorem startsWith_length {a b : Str} (h : startsWith a b = true) :
    b.length ≤ a.length := by
  induction b generalizing a with
  | nil => simp
  | cons x b ih =>
    cases a with
    | nil => simp [startsWith] at h
    | cons y a =>
      simp only [startsWith, Bool.and_eq_true] at h
      have := ih h.2
      simp only [List.length_cons]
      omega

theorem dropWhile_idem (p : Char → Bool) (l : Str) :
    (l.dropWhile p).dropWhile p = l.dropWhile p := by
  induction l with
  | nil => rfl
  | cons a t ih =>
    by_cases h : p a = true
    · simp [List.dropWhile_cons, h, ih]
    · simp [List.dropWhile_cons, h]

theorem dropTrailing_pre (p : Char → Bool) (s : Str) :
    dropTrailing p s <+: s := by
  have h1 : s.reverse.dropWhile p <:+ s.reverse := List.dropWhile_suffix p
  have h2 := List.reverse_prefix.mpr h1
  rw [List.reverse_reverse] at h2
  exact h2

theorem dropTrailing_head (p : Char → Bool) (h : Char) (t : Str)
    (hh : p h = false) : ∃ u, dropTrailing p (h :: t) = h :: u := by
  have hne : dropTrailing p (h :: t) ≠ [] := by
    intro hnil
    unfold dropTrailing at hnil
    rw [List.reverse_eq_nil_iff] at hnil
    rw [List.dropWhile_eq_nil_iff] at hnil
    have := hnil h (by simp)
    rw [hh] at this
    cases this
  obtain ⟨u, hu⟩ := dropTrailing_pre p (h :: t)
  cases hd : dropTrailing p (h :: t) with
  | nil => exact absurd hd hne
  | cons x xs =>
    rw [hd] at hu
    obtain rfl := List.head_eq_of_cons_eq hu.symm
    exact ⟨xs, rfl⟩

theorem dropTrailing_idem (p : Char → Bool) (s : Str) :
    dropTrailing p (dropTrailing p s) = dropTrailing p s := by
  unfold dropTrailing
  rw [List.reverse_reverse, dropWhile_idem]

theorem dropTrailing_append (p : Char → Bool) (xs ys : Str)
    (h : dropTrailing p ys ≠ []) :
    dropTrailing p (xs ++ ys) = xs ++ dropTrailing p ys := by
  have hrev : ys.reverse.dropWhile p ≠ [] := by
    intro hnil
    unfold dropTrailing at h
    rw [hnil] at h
    exact h rfl
  unfold dropTrailing
  rw [List.reverse_append, List.dropWhile_append,
    if_neg (by simp [List.isEmpty_iff, hrev])]
  rw [List.reverse_append, List.reverse_reverse]

theorem findSome?_isSome_of_mem {α β : Type} (l : List α) (f : α → Option β)
    (a : α) (ha : a ∈ l) (h : (f a).isSome = true) :
    (l.findSome? f).isSome = true := by
  induction l with
  | nil => cases ha
  | cons b t ih =>
    rw [List.findSome?_cons]
    cases hb : f b with
    | some w => simp
    | none =>
      rcases List.mem_cons.mp ha with rfl | ha2
      · rw [hb] at h; cases h
      · exact ih ha2

theorem startsWith_of_pre {a b : Str} (h : b <+: a) : startsWith a b = true := by
  obtain ⟨u, rfl⟩ := h
  exact startsWith_append b u

theorem getSubtree_descend :
    ∀ (c0 : LogTreeNode) (vs0 : List Str), DescendVals c0 vs0 →
      (∀ m ∈ nodes c0, ∀ ch ∈ m.children,
        ∃ h t, ch.value = h :: t ∧ pySpace h = false) →
      (getSubtree c0 (dropTrailing pySpace
        (renderPath (c0.value :: vs0)))).isSome = true := by
  intro c0 vs0 hd
  induction hd with
  | nil n =>
    intro hgood
    rw [renderPath_single]
    have hsw : startsWith n.value (dropTrailing pySpace n.value) = true :=
      startsWith_of_pre (dropTrailing_pre pySpace n.value)
    rw [getSubtree.eq_def]
    simp [hsw]
  | cons n c vs hc hdc ih =>
    intro hgood
    have hgood' : ∀ m ∈ nodes c, ∀ ch ∈ m.children,
        ∃ h t, ch.value = h :: t ∧ pySpace h = false :=
      fun m hm => hgood m ((mem_nodes _ _).mpr (Or.inr ⟨c, hc, hm⟩))
    have hIH := ih hgood'
    obtain ⟨hh, ht, hval, hsp⟩ := hgood n ((mem_nodes _ _).mpr (Or.inl rfl)) c hc
    have hRhead : ∃ rt, renderPath (c.value :: vs) = hh :: rt := by
      cases vs with
      | nil =>
        rw [renderPath_single, hval]
        exact ⟨ht, rfl⟩
      | cons b l =>
        rw [renderPath_cons, hval]
        exact ⟨ht ++ ' ' :: renderPath (b :: l), rfl⟩
    obtain ⟨rt, hR⟩ := hRhead
    obtain ⟨rt', hdt⟩ := dropTrailing_head pySpace hh rt hsp
    have hRdt : dropTrailing pySpace (renderPath (c.value :: vs)) = hh :: rt' := by
      rw [hR, hdt]
    have hdtne : dropTrailing pySpace (renderPath (c.value :: vs)) ≠ [] := by
      rw [hRdt]
      simp
    have hpath : dropTrailing pySpace (renderPath (n.value :: c.value :: vs)) =
        n.value ++ ' ' :: dropTrailing pySpace (renderPath (c.value :: vs)) := by
      rw [renderPath_cons]
      have h1 : dropTrailing pySpace (' ' :: renderPath (c.value :: vs)) ≠ [] := by
        rw [show (' ' :: renderPath (c.value :: vs)) =
          [' '] ++ renderPath (c.value :: vs) from rfl]
        rw [dropTrailing_append pySpace [' '] _ hdtne]
        simp
      rw [show n.value ++ ' ' :: renderPath (c.value :: vs) =
        n.value ++ (' ' :: renderPath (c.value :: vs)) from rfl]
      rw [dropTrailing_append pySpace n.value _ h1]
      congr 1
      rw [show (' ' :: renderPath (c.value :: vs)) =
        [' '] ++ renderPath (c.value :: vs) from rfl]
      rw [dropTrailing_append pySpace [' '] _ hdtne]
      rfl
    have hc1 : startsWith n.value (n.value ++ ' ' ::
        dropTrailing pySpace (renderPath (c.value :: vs))) = false := by
      by_contra hcon
      rw [Bool.not_eq_false] at hcon
      have := startsWith_length hcon
      rw [List.length_append, List.length_cons] at this
      omega
    have hc2 : startsWith (n.value ++ ' ' ::
        dropTrailing pySpace (renderPath (c.value :: vs))) n.value = true :=
      startsWith_append n.value _
    have hcp : stripWs ((n.value ++ ' ' ::
        dropTrailing pySpace (renderPath (c.value :: vs))).drop n.value.length) =
        dropTrailing pySpace (renderPath (c.value :: vs)) := by
      rw [show n.value ++ ' ' :: dropTrailing pySpace (renderPath (c.value :: vs)) =
        n.value ++ (' ' :: dropTrailing pySpace (renderPath (c.value :: vs)))
        from rfl]
      rw [List.drop_left]
      unfold stripWs
      rw [List.dropWhile_cons, if_pos (by decide)]
      rw [hRdt, List.dropWhile_cons, if_neg (by simp [hsp])]
      rw [← hRdt, dropTrailing_idem]
    rw [hpath, getSubtree.eq_def]
    simp only [hc1, hc2, Bool.false_eq_true, if_false, Bool.not_false, if_true]
    rw [hcp]
    rw [if_neg hdtne]
    exact findSome?_isSome_of_mem _ _ ⟨c, hc⟩ (List.mem_attach _ _) hIH

theorem getSubtree_render_aux (T : LogTreeNode) (vs : List Str)
    (hd : DescendVals T vs)
    (hgood : ∀ m ∈ nodes T, ∀ ch ∈ m.children,
      ∃ h t, ch.value = h :: t ∧ pySpace h = false) :
    (getSubtree T (renderPath (T.value :: vs))).isSome = true := by
  cases hd with
  | nil =>
    rw [renderPath_single]
    have hsw : startsWith T.value T.value = true :=
      startsWith_of_pre (List.prefix_refl _)
    rw [getSubtree.eq_def]
    simp [hsw]
  | cons n c vs' hc hdc =>
    have hgood' : ∀ m ∈ nodes c, ∀ ch ∈ m.children,
        ∃ h t, ch.value = h :: t ∧ pySpace h = false :=
      fun m hm => hgood m ((mem_nodes _ _).mpr (Or.inr ⟨c, hc, hm⟩))
    have hIH := getSubtree_descend c vs' hdc hgood'
    obtain ⟨hh, ht, hval, hsp⟩ :=
      hgood T ((mem_nodes _ _).mpr (Or.inl rfl)) c hc
    have hRhead : ∃ rt, renderPath (c.value :: vs') = hh :: rt := by
      cases vs' with
      | nil =>
        rw [renderPath_single, hval]
        exact ⟨ht, rfl⟩
      | cons b l =>
        rw [renderPath_cons, hval]
        exact ⟨ht ++ ' ' :: renderPath (b :: l), rfl⟩
    obtain ⟨rt, hR⟩ := hRhead
    obtain ⟨rt', hdt⟩ := dropTrailing_head pySpace hh rt hsp
    have hRdt : dropTrailing pySpace (renderPath (c.value :: vs')) = hh :: rt' := by
      rw [hR, hdt]
    have hdtne : dropTrailing pySpace (renderPath (c.value :: vs')) ≠ [] := by
      rw [hRdt]
      simp
    have hc1 : startsWith T.value
        (T.value ++ ' ' :: renderPath (c.value :: vs')) =
        false := by
      by_contra hcon
      rw [Bool.not_eq_false] at hcon
      have := startsWith_length hcon
      rw [List.length_append, List.length_cons] at this
      omega
    have hc2 : startsWith (T.value ++ ' ' ::
        renderPath (c.value :: vs')) T.value = true :=
      startsWith_append T.value _
    have hcp : stripWs ((T.value ++ ' ' ::
        renderPath (c.value :: vs')).drop T.value.length) =
        dropTrailing pySpace (renderPath (c.value :: vs')) := by
      rw [show T.value ++ ' ' :: renderPath (c.value :: vs') =
        T.value ++ (' ' :: renderPath (c.value :: vs'))
        from rfl]
      rw [List.drop_left]
      unfold stripWs
      rw [List.dropWhile_cons, if_pos (by decide)]
      rw [hR, List.dropWhile_cons, if_neg (by simp [hsp])]
    rw [renderPath_cons, getSubtree.eq_def]
    simp only [hc1, hc2, Bool.false_eq_true, if_false, Bool.not_false, if_true]
    rw [hcp]
    rw [if_neg hdtne]
    exact findSome?_isSome_of_mem _ _ ⟨c, hc⟩ (List.mem_attach _ _) hIH

/-- Claim C8 (amended): get_subtree is not a right inverse of path
rendering, but it never fails on a rendered path: for every freshly
built tree and every value chain descending from the root, get_subtree
applied to the space-joined values returns some node — just not
necessarily the node the path was rendered from (see the
counterexample). -/
theorem claim8_theorem (loglines : List Str) (vs : List Str)
    (hd : DescendVals (buildTree loglines) vs) :
    (getSubtree (buildTree loglines)
      (renderPath ((buildTree loglines).value :: vs))).isSome = true :=
  getSubtree_render_aux (buildTree loglines) vs hd
    (fun m hm => (buildTree_nodes_spec loglines m hm).2.2.2.2.2)

theorem claim8_witness :
    (getSubtree (buildTree []) (renderPath [(buildTree []).value])).isSome =
      true :=
  claim8_theorem [] [] (DescendVals.nil _)

theorem attach_findSome?_head {α β : Type} (x : α) (xs : List α) (b : β)
    (f : {a : α // a ∈ x :: xs} → Option β)
    (h : f ⟨x, List.mem_cons_self ..⟩ = some b) :
    (x :: xs).attach.findSome? f = some b := by
  rw [List.attach_cons, List.findSome?_cons, h]

theorem getSubtree_ex2B : getSubtree
    (LogTreeNode.mk ['b',' ','x'] 2
      [['a',' ','b',' ','x'], ['a',' ','b',' ','x'], ['a',' ','b',' ','x'],
       ['a',' ','b',' ','x'], ['a',' ','b',' ','x']] []) ['b',' ','x'] =
    some (LogTreeNode.mk ['b',' ','x'] 2
      [['a',' ','b',' ','x'], ['a',' ','b',' ','x'], ['a',' ','b',' ','x'],
       ['a',' ','b',' ','x'], ['a',' ','b',' ','x']] []) := by
  rw [getSubtree.eq_def]
  simp only [LogTreeNode.value_mk]
  rw [if_pos (by decide)]

theorem getSubtree_ex2A : getSubtree
    (LogTreeNode.mk ['a'] 1
      [['a',' ','b',' ','x'], ['a',' ','b',' ','x'], ['a',' ','b',' ','x'],
       ['a',' ','b',' ','x'], ['a',' ','b',' ','x'], ['a']]
      [LogTreeNode.mk ['b',' ','x'] 2
        [['a',' ','b',' ','x'], ['a',' ','b',' ','x'], ['a',' ','b',' ','x'],
         ['a',' ','b',' ','x'], ['a',' ','b',' ','x']] []]) ['a','b',' ','x'] =
    some (LogTreeNode.mk ['b',' ','x'] 2
      [['a',' ','b',' ','x'], ['a',' ','b',' ','x'], ['a',' ','b',' ','x'],
       ['a',' ','b',' ','x'], ['a',' ','b',' ','x']] []) := by
  rw [getSubtree.eq_def]
  simp only [LogTreeNode.value_mk, LogTreeNode.children_mk]
  rw [if_neg (by decide)]
  rw [if_neg (by decide)]
  rw [show stripWs ((['a','b',' ','x'] : Str).drop (['a'] : Str).length) =
    ['b',' ','x'] from by decide]
  rw [if_neg (by decide)]
  exact attach_findSome?_head _ _ _ _ getSubtree_ex2B

theorem buildTree_ex2 :
    buildTree (List.replicate 5 ['a',' ','b',' ','x'] ++
        ['a'] :: List.replicate 5 ['a','b',' ','x']) =
    .mk [] 0 (List.replicate 5 ['a',' ','b',' ','x'] ++
        ['a'] :: List.replicate 5 ['a','b',' ','x'])
      [.mk ['a'] 1 (List.replicate 5 ['a',' ','b',' ','x'] ++ [['a']])
        [.mk ['b',' ','x'] 2 (List.replicate 5 ['a',' ','b',' ','x']) []],
       .mk ['a','b',' ','x'] 1 (List.replicate 5 ['a','b',' ','x']) []] := by
  have hppB2 : partitionPairs 2
      (List.replicate 5 ([['a'],['b'],['x']], ['a',' ','b',' ','x'])) =
      ([(['x'], List.replicate 5 ([['a'],['b'],['x']], ['a',' ','b',' ','x']))],
        false) := by decide
  have hppB3 : partitionPairs 3
      (List.replicate 5 ([['a'],['b'],['x']], ['a',' ','b',' ','x'])) =
      ([], true) := by decide
  have hbcB3 : buildChildren
      (List.replicate 5 ([['a'],['b'],['x']], ['a',' ','b',' ','x']))
      (['b',' ','x'] : Str) 2 3 = (['b',' ','x'], []) := by
    rw [buildChildren_terminal _ _ _ _ (ne_single_of_final hppB3)]
    rw [hppB3, pruneLoop_nil]
    rfl
  have hbcB2 : buildChildren
      (List.replicate 5 ([['a'],['b'],['x']], ['a',' ','b',' ','x']))
      (['b'] : Str) 2 2 = (['b',' ','x'], []) := by
    rw [buildChildren_merge _ _ _ _ _ _ hppB2]
    rw [(by decide :
      (if (['b'] : Str) = [] then (['x'] : Str) else ['b'] ++ ' ' :: ['x']) =
        ['b',' ','x'])]
    rw [if_neg (by decide)]
    exact hbcB3
  have hB : buildNode
      (List.replicate 5 ([['a'],['b'],['x']], ['a',' ','b',' ','x']))
      (['b'] : Str) 2 2 =
      .mk ['b',' ','x'] 2 (List.replicate 5 ['a',' ','b',' ','x']) [] := by
    rw [buildNode_build _ _ _ _ (by decide) (by decide)]
    rw [hbcB2]
    rfl
  have hppA1 : partitionPairs 1
      (List.replicate 5 ([['a'],['b'],['x']], ['a',' ','b',' ','x']) ++
        [([['a']], ['a'])]) =
      ([(['b'], List.replicate 5 ([['a'],['b'],['x']], ['a',' ','b',' ','x']))],
        true) := by decide
  have hbcA : buildChildren
      (List.replicate 5 ([['a'],['b'],['x']], ['a',' ','b',' ','x']) ++
        [([['a']], ['a'])]) (['a'] : Str) 1 1 =
      (['a'], [buildNode
        (List.replicate 5 ([['a'],['b'],['x']], ['a',' ','b',' ','x']))
        (['b'] : Str) 2 2]) := by
    rw [buildChildren_terminal _ _ _ _ (ne_single_of_final hppA1)]
    rw [hppA1, pruneLoop_small _ _ _ (by decide)]
    rw [List.attach_map_coe _ (fun x : Bucket => buildNode x.2 x.1 2 2)]
    rfl
  have hA : buildNode
      (List.replicate 5 ([['a'],['b'],['x']], ['a',' ','b',' ','x']) ++
        [([['a']], ['a'])]) (['a'] : Str) 1 1 =
      .mk ['a'] 1 (List.replicate 5 ['a',' ','b',' ','x'] ++ [['a']])
        [.mk ['b',' ','x'] 2 (List.replicate 5 ['a',' ','b',' ','x']) []] := by
    rw [buildNode_build _ _ _ _ (by decide) (by decide)]
    rw [hbcA, hB]
    rfl
  have hppC1 : partitionPairs 1
      (List.replicate 5 ([['a','b'],['x']], ['a','b',' ','x'])) =
      ([(['x'], List.replicate 5 ([['a','b'],['x']], ['a','b',' ','x']))],
        false) := by decide
  have hppC2 : partitionPairs 2
      (List.replicate 5 ([['a','b'],['x']], ['a','b',' ','x'])) =
      ([], true) := by decide
  have hbcC2 : buildChildren
      (List.replicate 5 ([['a','b'],['x']], ['a','b',' ','x']))
      (['a','b',' ','x'] : Str) 1 2 = (['a','b',' ','x'], []) := by
    rw [buildChildren_terminal _ _ _ _ (ne_single_of_final hppC2)]
    rw [hppC2, pruneLoop_nil]
    rfl
  have hbcC1 : buildChildren
      (List.replicate 5 ([['a','b'],['x']], ['a','b',' ','x']))
      (['a','b'] : Str) 1 1 = (['a','b',' ','x'], []) := by
    rw [buildChildren_merge _ _ _ _ _ _ hppC1]
    rw [(by decide :
      (if (['a','b'] : Str) = [] then (['x'] : Str)
        else ['a','b'] ++ ' ' :: ['x']) = ['a','b',' ','x'])]
    rw [if_neg (by decide)]
    exact hbcC2
  have hC : buildNode
      (List.replicate 5 ([['a','b'],['x']], ['a','b',' ','x']))
      (['a','b'] : Str) 1 1 =
      .mk ['a','b',' ','x'] 1 (List.replicate 5 ['a','b',' ','x']) [] := by
    rw [buildNode_build _ _ _ _ (by decide) (by decide)]
    rw [hbcC1]
    rfl
  have hpp0 : partitionPairs 0
      (List.replicate 5 ([['a'],['b'],['x']], ['a',' ','b',' ','x']) ++
        ([['a']], ['a']) :: List.replicate 5 ([['a','b'],['x']], ['a','b',' ','x'])) =
      ([(['a'], List.replicate 5 ([['a'],['b'],['x']], ['a',' ','b',' ','x']) ++
          [([['a']], ['a'])]),
        (['a','b'], List.replicate 5 ([['a','b'],['x']], ['a','b',' ','x']))],
        false) := by decide
  have hbc0 : buildChildren
      (List.replicate 5 ([['a'],['b'],['x']], ['a',' ','b',' ','x']) ++
        ([['a']], ['a']) :: List.replicate 5 ([['a','b'],['x']], ['a','b',' ','x']))
      ([] : Str) 0 0 =
      ([], [buildNode
        (List.replicate 5 ([['a'],['b'],['x']], ['a',' ','b',' ','x']) ++
          [([['a']], ['a'])]) (['a'] : Str) 1 1,
       buildNode
        (List.replicate 5 ([['a','b'],['x']], ['a','b',' ','x']))
        (['a','b'] : Str) 1 1]) := by
    rw [buildChildren_terminal _ _ _ _ (ne_single_of_length hpp0 (by decide))]
    rw [hpp0, pruneLoop_small _ _ _ (by decide)]
    rw [List.attach_map_coe _ (fun x : Bucket => buildNode x.2 x.1 1 1)]
    rfl
  unfold buildTree
  rw [(by decide :
    ((List.replicate 5 ['a',' ','b',' ','x'] ++
        ['a'] :: List.replicate 5 ['a','b',' ','x']).map
      (fun l => (getKeywords l, l))) =
    (List.replicate 5 ([['a'],['b'],['x']], ['a',' ','b',' ','x']) ++
      ([['a']], ['a']) :: List.replicate 5 ([['a','b'],['x']], ['a','b',' ','x'])))]
  rw [buildNode_build _ _ _ _ (by decide) (by decide)]
  rw [hbc0, hA, hC]
  rfl

/-- Counterexample to claim C8 as stated: for five lines "a b x", one
line "a" and five lines "ab x" the root has children valued "a" and
"ab x"; get_subtree on the rendered path of the "ab x" node walks into
the sibling "a" first (the path starts with it) and returns that
sibling's grandchild "b x", not the "ab x" node itself. -/
theorem claim8_cex :
    (LogTreeNode.mk ['a','b',' ','x'] 1
        (List.replicate 5 ['a','b',' ','x']) []) ∈
      (buildTree (List.replicate 5 ['a',' ','b',' ','x'] ++
        ['a'] :: List.replicate 5 ['a','b',' ','x'])).children ∧
    getSubtree (buildTree (List.replicate 5 ['a',' ','b',' ','x'] ++
        ['a'] :: List.replicate 5 ['a','b',' ','x']))
        (renderPath [(buildTree (List.replicate 5 ['a',' ','b',' ','x'] ++
          ['a'] :: List.replicate 5 ['a','b',' ','x'])).value,
          ['a','b',' ','x']]) =
      some (LogTreeNode.mk ['b',' ','x'] 2
        (List.replicate 5 ['a',' ','b',' ','x']) []) ∧
    LogTreeNode.mk ['b',' ','x'] 2
        (List.replicate 5 ['a',' ','b',' ','x']) [] ≠
      LogTreeNode.mk ['a','b',' ','x'] 1
        (List.replicate 5 ['a','b',' ','x']) [] := by
  refine ⟨?_, ?_, ?_⟩
  · rw [buildTree_ex2]
    exact List.mem_cons_of_mem _ (List.mem_cons_self ..)
  · rw [buildTree_ex2]
    simp only [LogTreeNode.value_mk]
    rw [show renderPath [([] : Str), ['a','b',' ','x']] =
      [' ','a','b',' ','x'] from by decide]
    rw [getSubtree.eq_def]
    simp only [LogTreeNode.value_mk, LogTreeNode.children_mk]
    rw [if_neg (by decide)]
    rw [if_neg (by decide)]
    rw [show stripWs (([' ','a','b',' ','x'] : Str).drop (([] : Str)).length) =
      ['a','b',' ','x'] from by decide]
    rw [if_neg (by decide)]
    rw [show (List.replicate 5 (['a',' ','b',' ','x'] : Str)) =
      [['a',' ','b',' ','x'], ['a',' ','b',' ','x'], ['a',' ','b',' ','x'],
       ['a',' ','b',' ','x'], ['a',' ','b',' ','x']] from rfl]
    rw [show (List.replicate 5 (['a','b',' ','x'] : Str)) =
      [['a','b',' ','x'], ['a','b',' ','x'], ['a','b',' ','x'],
       ['a','b',' ','x'], ['a','b',' ','x']] from rfl]
    exact attach_findSome?_head _ _ _ _ getSubtree_ex2A
  · simp
